import Mathlib

set_option maxRecDepth 20000

/-!
Verification development for the `mysql-redis-cache` repository.

The repository provides a read-through/write-through cache for MySQL query
results stored in Redis.  This file gives a shallow embedding of its core
logic and proves the specification claims about it:

* `Scalar` models the JavaScript scalar values used as query parameters,
  together with JavaScript's default string coercion (`String(x)`).
* `sha1hex` implements SHA-1 over the UTF-8 bytes of a string (the repo
  calls Node's `crypto.createHash("sha1")`), producing the lowercase hex
  digest used inside cache keys.
* `Client.getKeyFromQuery`, `MRCInstance.getKeyFromQuery` and
  `LegacyClient.getKeyFromQuery` embed the three key-derivation functions
  found in the repository (current client and the two legacy copies).
* `JValue`, `stringify` and `jsonParse` model the JSON payloads
  (`JSON.stringify` / `JSON.parse`) stored in Redis.
* `Store`, `readFromCache`, `writeToCache`, `withCache`, `queryWithCache`
  and `Server.dropOutdatedCache` embed the cache protocol itself, with the
  Redis connection state (`Option Unit`), store availability (`Bool`) and
  the `Math.random()` draw (`ℚ` in `[0,1)`) made explicit.
-/

/-! ### Decimal digit strings

Decimal rendering of naturals, shared by JavaScript's number-to-string
coercion and by the JSON serializer.  Built on `Nat.digits` so that the
round-trip proofs can reuse `Nat.ofDigits_digits`. -/

/-- Little-endian decimal digits of `n`, with explicit fuel so the
definition is structurally recursive (any `fuel ≥ n` is exact). -/
def natDigitsRev (fuel : Nat) (n : Nat) : List Nat :=
  match fuel with
  | 0 => []
  | f + 1 => if n = 0 then [] else n % 10 :: natDigitsRev f (n / 10)

/-- Big-endian decimal digits of `n` as characters; `"0"` for zero. -/
def natChars (n : Nat) : List Char :=
  if n = 0 then ['0'] else ((natDigitsRev n n).map Nat.digitChar).reverse

/-- Decimal rendering of an integer (JavaScript `String(n)` for integral `n`). -/
def intChars (n : Int) : List Char :=
  if n < 0 then '-' :: natChars n.natAbs else natChars n.natAbs

/-! ### JavaScript scalars -/

/-- JavaScript scalar values that appear as query parameters. -/
inductive Scalar where
  | null
  | undefined
  | bool (b : Bool)
  | int (n : Int)
  | str (s : String)
deriving DecidableEq

/-- JavaScript's default string coercion `String(x)` (as applied by the
`+` string concatenation in the key builders). -/
def Scalar.toJSString : Scalar → String
  | .null => "null"
  | .undefined => "undefined"
  | .bool true => "true"
  | .bool false => "false"
  | .int n => String.mk (intChars n)
  | .str s => s

/-- JavaScript array indexing `l[i]`: out-of-range reads give `undefined`. -/
def jsIndex (l : List Scalar) (i : Nat) : Scalar :=
  l.getD i .undefined

/-! ### SHA-1

Executable SHA-1 over byte lists, with all 32-bit arithmetic done in `Nat`
modulo `2 ^ 32`.  This models `crypto.createHash("sha1").update(query).digest("hex")`. -/

/-- UTF-8 encoding of one character as a list of bytes. -/
def utf8EncodeChar (c : Char) : List Nat :=
  let n := c.toNat
  if n < 0x80 then [n]
  else if n < 0x800 then [0xC0 + n / 64, 0x80 + n % 64]
  else if n < 0x10000 then [0xE0 + n / 4096, 0x80 + (n / 64) % 64, 0x80 + n % 64]
  else [0xF0 + n / 262144, 0x80 + (n / 4096) % 64, 0x80 + (n / 64) % 64, 0x80 + n % 64]

/-- UTF-8 bytes of a string. -/
def utf8Bytes (s : String) : List Nat :=
  (s.data.map utf8EncodeChar).flatten

/-- SHA-1 padding: append `0x80`, zero bytes, and the 64-bit big-endian bit length. -/
def sha1Pad (msg : List Nat) : List Nat :=
  let bitLen := 8 * msg.length
  let zeros := (55 + 64 - msg.length % 64) % 64
  msg ++ [0x80] ++ List.replicate zeros 0 ++
    (List.range 8).map (fun i => (bitLen >>> (8 * (7 - i))) % 256)

/-- Group bytes into big-endian 32-bit words. -/
def bytesToWords : List Nat → List Nat
  | b0 :: b1 :: b2 :: b3 :: rest =>
      (b0 * 0x1000000 + b1 * 0x10000 + b2 * 0x100 + b3) :: bytesToWords rest
  | _ => []

/-- Split a word list (whose length is a multiple of 16) into its
consecutive 16-word blocks. -/
def toBlocks (ws : List Nat) : List (List Nat) :=
  (List.range (ws.length / 16)).map (fun i => (ws.drop (16 * i)).take 16)

/-- Left rotation of a 32-bit word. -/
def rotl32 (n x : Nat) : Nat :=
  ((x <<< n) ||| (x >>> (32 - n))) % 0x100000000

/-- SHA-1 round function. -/
def sha1f (i b c d : Nat) : Nat :=
  if i < 20 then (b &&& c) ||| ((b ^^^ 0xFFFFFFFF) &&& d)
  else if i < 40 then b ^^^ c ^^^ d
  else if i < 60 then (b &&& c) ||| (b &&& d) ||| (c &&& d)
  else b ^^^ c ^^^ d

/-- SHA-1 round constants. -/
def sha1k (i : Nat) : Nat :=
  if i < 20 then 0x5A827999
  else if i < 40 then 0x6ED9EBA1
  else if i < 60 then 0x8F1BBCDC
  else 0xCA62C1D6

/-- Expand a 16-word block to the 80-word message schedule. -/
def sha1Expand (block : List Nat) : List Nat :=
  (List.range 64).foldl
    (fun acc _ =>
      acc ++ [rotl32 1 (acc.getD (acc.length - 3) 0 ^^^ acc.getD (acc.length - 8) 0 ^^^
        acc.getD (acc.length - 14) 0 ^^^ acc.getD (acc.length - 16) 0)])
    block

/-- SHA-1 compression of one block into the running state. -/
def sha1Block (h : Nat × Nat × Nat × Nat × Nat) (block : List Nat) :
    Nat × Nat × Nat × Nat × Nat :=
  let w := sha1Expand block
  match h with
  | (h0, h1, h2, h3, h4) =>
    let st := (List.range 80).foldl
      (fun st i =>
        match st with
        | (a, b, c, d, e) =>
          ((rotl32 5 a + sha1f i b c d + e + sha1k i + w.getD i 0) % 0x100000000,
            a, rotl32 30 b, c, d))
      (h0, h1, h2, h3, h4)
    match st with
    | (a, b, c, d, e) =>
      ((h0 + a) % 0x100000000, (h1 + b) % 0x100000000, (h2 + c) % 0x100000000,
        (h3 + d) % 0x100000000, (h4 + e) % 0x100000000)

/-- Two lowercase hex characters for a byte. -/
def byteToHex (b : Nat) : List Char :=
  [Nat.digitChar (b / 16 % 16), Nat.digitChar (b % 16)]

/-- Eight lowercase hex characters for a 32-bit word (big-endian). -/
def wordToHex (w : Nat) : List Char :=
  byteToHex (w >>> 24 % 256) ++ byteToHex (w >>> 16 % 256) ++
    byteToHex (w >>> 8 % 256) ++ byteToHex (w % 256)

/-- Lowercase hex SHA-1 digest of the UTF-8 bytes of `s`
(`crypto.createHash("sha1").update(s).digest("hex")`). -/
def sha1hex (s : String) : String :=
  let blocks := toBlocks (bytesToWords (sha1Pad (utf8Bytes s)))
  let h := blocks.foldl sha1Block (0x67452301, 0xEFCDAB89, 0x98BADCFE, 0x10325476, 0xC3D2E1F0)
  match h with
  | (h0, h1, h2, h3, h4) =>
    String.mk (wordToHex h0 ++ wordToHex h1 ++ wordToHex h2 ++ wordToHex h3 ++ wordToHex h4)

/-! ### Key derivation

The repository contains three copies of the key derivation routine:
the current `Client.getKeyFromQuery`, the legacy `MRCInstance.getKeyFromQuery`
and the legacy `Client.getKeyFromQuery`.  Each is embedded separately,
faithful to its own source text.  `params` is `Option` because the
TypeScript parameter is optional (`params?: any[]`), and the guard
`params && params.length > 0` tests both presence and non-emptiness. -/

namespace Client

/-- Embedding of the current `Client.getKeyFromQuery`. -/
def getKeyFromQuery (query : String) (params : Option (List Scalar))
    (paramNames : List String := []) : String :=
  let hash := sha1hex query
  let key :=
    if (match params with | some ps => decide (ps.length > 0) | none => false) then
      paramNames.enum.foldl
        (fun key p =>
          key ++ p.2 ++ "=" ++ (jsIndex (params.getD []) p.1).toJSString ++ "_")
        ""
    else ""
  key ++ hash

end Client

namespace MRCInstance

/-- Embedding of the legacy `MRCInstance.getKeyFromQuery`. -/
def getKeyFromQuery (query : String) (params : Option (List Scalar))
    (paramNames : List String := []) : String :=
  let hash := sha1hex query
  let key :=
    if (match params with | some ps => decide (ps.length > 0) | none => false) then
      paramNames.enum.foldl
        (fun key p =>
          key ++ p.2 ++ "=" ++ (jsIndex (params.getD []) p.1).toJSString ++ "_")
        ""
    else ""
  key ++ hash

end MRCInstance

namespace LegacyClient

/-- Embedding of the legacy `Client.getKeyFromQuery`. -/
def getKeyFromQuery (query : String) (params : Option (List Scalar))
    (paramNames : List String := []) : String :=
  let hash := sha1hex query
  let key :=
    if (match params with | some ps => decide (ps.length > 0) | none => false) then
      paramNames.enum.foldl
        (fun key p =>
          key ++ p.2 ++ "=" ++ (jsIndex (params.getD []) p.1).toJSString ++ "_")
        ""
    else ""
  key ++ hash

end LegacyClient

/-! ### JSON values

`JValue` models the JSON-representable JavaScript values that flow through
the cache (`JSON.stringify` on write, `JSON.parse` on read).  Numbers are
modelled as integers. -/

inductive JValue where
  | null
  | bool (b : Bool)
  | num (n : Int)
  | str (s : String)
  | arr (elems : List JValue)
  | obj (fields : List (String × JValue))

/-- Hex escape `\u00XX` for a control character. -/
def hexEsc (n : Nat) : List Char :=
  ['\\', 'u', '0', '0', Nat.digitChar (n / 16), Nat.digitChar (n % 16)]

/-- `JSON.stringify` escaping of one string character. -/
def escapeChar (c : Char) : List Char :=
  if c = '"' then ['\\', '"']
  else if c = '\\' then ['\\', '\\']
  else if c = '\x08' then ['\\', 'b']
  else if c = '\x09' then ['\\', 't']
  else if c = '\x0a' then ['\\', 'n']
  else if c = '\x0c' then ['\\', 'f']
  else if c = '\x0d' then ['\\', 'r']
  else if c.toNat < 0x20 then hexEsc c.toNat
  else [c]

/-- Escaped body of a JSON string literal. -/
def escChars (l : List Char) : List Char :=
  (l.map escapeChar).flatten

/-- A JSON string literal, quotes included. -/
def strLit (s : String) : List Char :=
  '"' :: (escChars s.data ++ ['"'])

mutual

/-- Characters of the compact `JSON.stringify` serialization. -/
def strChars : JValue → List Char
  | .null => "null".data
  | .bool true => "true".data
  | .bool false => "false".data
  | .num n => intChars n
  | .str s => strLit s
  | .arr [] => ['[', ']']
  | .arr (x :: xs) => '[' :: (strChars x ++ itemsTail xs ++ [']'])
  | .obj [] => ['\x7b', '\x7d']
  | .obj (f :: fs) => '\x7b' :: (fieldChars f ++ fieldsTail fs ++ ['\x7d'])

/-- One `"key":value` member of a JSON object. -/
def fieldChars : String × JValue → List Char
  | (k, v) => strLit k ++ ':' :: strChars v

/-- The `,`-led tail items of a JSON array. -/
def itemsTail : List JValue → List Char
  | [] => []
  | x :: xs => ',' :: (strChars x ++ itemsTail xs)

/-- The `,`-led tail members of a JSON object. -/
def fieldsTail : List (String × JValue) → List Char
  | [] => []
  | f :: fs => ',' :: (fieldChars f ++ fieldsTail fs)

end

/-- Compact JSON serialization (`JSON.stringify(v)`). -/
def stringify (v : JValue) : String :=
  String.mk (strChars v)

/-! ### JSON parsing (`JSON.parse`) -/

/-- JSON insignificant whitespace. -/
def isWsChar (c : Char) : Bool :=
  c = ' ' || c = '\x09' || c = '\x0a' || c = '\x0d'

/-- Skip leading JSON whitespace. -/
def skipWs : List Char → List Char
  | [] => []
  | c :: r => if isWsChar c then skipWs r else c :: r

/-- Consume an expected literal character sequence. -/
def expectLit : List Char → List Char → Option (List Char)
  | [], l => some l
  | _ :: _, [] => none
  | p :: ps, c :: cs => if c = p then expectLit ps cs else none

/-- Value of one hex digit. -/
def hexVal (c : Char) : Option Nat :=
  if '0' ≤ c ∧ c ≤ '9' then some (c.toNat - 48)
  else if 'a' ≤ c ∧ c ≤ 'f' then some (c.toNat - 87)
  else if 'A' ≤ c ∧ c ≤ 'F' then some (c.toNat - 55)
  else none

/-- Decode one escape sequence (the part after the backslash). -/
def parseEsc (rest : List Char) : Option (Char × List Char) :=
  match rest with
  | [] => none
  | e :: r =>
    if e = '"' then some ('"', r)
    else if e = '\\' then some ('\\', r)
    else if e = '/' then some ('/', r)
    else if e = 'b' then some ('\x08', r)
    else if e = 'f' then some ('\x0c', r)
    else if e = 'n' then some ('\x0a', r)
    else if e = 'r' then some ('\x0d', r)
    else if e = 't' then some ('\x09', r)
    else if e = 'u' then
      match r with
      | a :: b :: c2 :: d :: r2 =>
        match hexVal a, hexVal b, hexVal c2, hexVal d with
        | some ha, some hb, some hc2, some hd =>
          let n := 4096 * ha + 256 * hb + 16 * hc2 + hd
          if n < 0xd800 then some (Char.ofNat n, r2) else none
        | _, _, _, _ => none
      | _ => none
    else none

/-- Parse the body of a JSON string literal (after the opening quote),
returning the unescaped characters and the input after the closing quote.
The fuel argument only needs to reach the number of decoded characters
plus one; call sites pass the remaining input length. -/
def parseStr : Nat → List Char → Option (List Char × List Char)
  | 0, _ => none
  | _ + 1, [] => none
  | fuel + 1, c :: rest =>
    if c = '"' then some ([], rest)
    else if c = '\\' then
      match parseEsc rest with
      | some (ch, r) => (parseStr fuel r).map (fun p => (ch :: p.1, p.2))
      | none => none
    else if c.toNat < 0x20 then none
    else (parseStr fuel rest).map (fun p => (c :: p.1, p.2))

/-- Numeric value of a decimal digit character. -/
def digitVal (c : Char) : Nat :=
  c.toNat - 48

/-- Decimal value of a big-endian digit-character list. -/
def digitsToNat (ds : List Char) : Nat :=
  ds.foldl (fun a c => 10 * a + digitVal c) 0

/-- Parse a maximal run of decimal digits. -/
def parseNatNum (l : List Char) : Option (Nat × List Char) :=
  let ds := l.takeWhile Char.isDigit
  if ds.isEmpty then none else some (digitsToNat ds, l.dropWhile Char.isDigit)

/-- Parse a JSON (integer) number, with optional leading minus. -/
def parseNum (l : List Char) : Option (JValue × List Char) :=
  if l.head? = some '-' then
    (parseNatNum l.tail).map (fun p => (JValue.num (-(p.1 : Int)), p.2))
  else
    (parseNatNum l).map (fun p => (JValue.num ((p.1 : Int)), p.2))

/-- Parse an object key together with the following `:`. -/
def parseKey (l : List Char) : Option (String × List Char) :=
  match skipWs l with
  | '"' :: rest =>
    match parseStr rest.length rest with
    | some (s, r) =>
      let r' := skipWs r
      if r'.head? = some ':' then some (String.mk s, r'.tail) else none
    | none => none
  | _ => none

mutual

/-- Parse one JSON value (fuel-indexed recursive descent). -/
def parseV : Nat → List Char → Option (JValue × List Char)
  | 0, _ => none
  | fuel + 1, l =>
    match skipWs l with
    | [] => none
    | c :: rest =>
      if c = 'n' then (expectLit ['u', 'l', 'l'] rest).map (fun r => (JValue.null, r))
      else if c = 't' then (expectLit ['r', 'u', 'e'] rest).map (fun r => (JValue.bool true, r))
      else if c = 'f' then (expectLit ['a', 'l', 's', 'e'] rest).map (fun r => (JValue.bool false, r))
      else if c = '"' then
        (parseStr rest.length rest).map (fun p => (JValue.str (String.mk p.1), p.2))
      else if c = '[' then
        let l' := skipWs rest
        if l'.head? = some ']' then some (JValue.arr [], l'.tail)
        else do
          let p ← parseV fuel l'
          parseItems fuel p.2 [p.1]
      else if c = '\x7b' then
        let l' := skipWs rest
        if l'.head? = some '\x7d' then some (JValue.obj [], l'.tail)
        else do
          let kp ← parseKey l'
          let vp ← parseV fuel kp.2
          parseFields fuel vp.2 [(kp.1, vp.1)]
      else parseNum (c :: rest)

/-- Parse the remaining items of a JSON array after the first element. -/
def parseItems : Nat → List Char → List JValue → Option (JValue × List Char)
  | 0, _, _ => none
  | fuel + 1, l, acc =>
    let l' := skipWs l
    if l'.head? = some ']' then some (JValue.arr acc.reverse, l'.tail)
    else if l'.head? = some ',' then do
      let p ← parseV fuel l'.tail
      parseItems fuel p.2 (p.1 :: acc)
    else none

/-- Parse the remaining members of a JSON object after the first member. -/
def parseFields : Nat → List Char → List (String × JValue) →
    Option (JValue × List Char)
  | 0, _, _ => none
  | fuel + 1, l, acc =>
    let l' := skipWs l
    if l'.head? = some '\x7d' then some (JValue.obj acc.reverse, l'.tail)
    else if l'.head? = some ',' then do
      let kp ← parseKey l'.tail
      let vp ← parseV fuel kp.2
      parseFields fuel vp.2 ((kp.1, vp.1) :: acc)
    else none

end

/-- `JSON.parse`: parse a complete JSON document (trailing whitespace allowed);
`none` models a thrown `SyntaxError`. -/
def jsonParse (s : String) : Option JValue :=
  match parseV (s.data.length + 1) s.data with
  | some (v, rest) => if skipWs rest = [] then some v else none
  | none => none

/-! ### The key-value store and the cache client

The Redis store is modelled as an association list from keys to entries
(value string plus the expiration seconds passed to `SET ... EX`).  The
client's connection handle (`this.redisClient`) is an explicit
`Option Unit`; `avail : Bool` says whether the Redis server is reachable;
`rand : ℚ` is the `Math.random()` draw of the call. -/

/-- A stored cache entry: the value string and the `EX` expiration seconds. -/
structure Entry where
  value : String
  ex : Int
deriving DecidableEq

/-- The key-value store's contents. -/
structure Store where
  entries : List (String × Entry)
deriving DecidableEq

/-- Redis `GET`: the value under a key, if present. -/
def Store.get (s : Store) (k : String) : Option String :=
  (s.entries.find? (fun e => e.1 == k)).map (fun e => e.2.value)

/-- The full entry under a key, if present. -/
def Store.getEntry (s : Store) (k : String) : Option Entry :=
  (s.entries.find? (fun e => e.1 == k)).map (fun e => e.2)

/-- Redis `SET key v EX ex`: overwrite the entry under `k`. -/
def Store.set (s : Store) (k v : String) (ex : Int) : Store :=
  ⟨(k, ⟨v, ex⟩) :: s.entries.filter (fun e => !(e.1 == k))⟩

/-- Redis `DEL k`. -/
def Store.del (s : Store) (k : String) : Store :=
  ⟨s.entries.filter (fun e => !(e.1 == k))⟩

/-- Errors surfaced by the cache operations. -/
inductive RErr where
  | connectionError
  | parseError
  | queryError (msg : String)
deriving DecidableEq

/-- Embedding of `_connectRedis`: connecting succeeds iff the store is
reachable; on failure the rejection propagates and the handle stays
invalidated (the client's error handler sets `redisClient = undefined`). -/
def connectRedis (avail : Bool) : Except RErr (Option Unit) :=
  if avail then .ok (some ()) else .error .connectionError

/-- The `if (!this.redisClient) await this._connectRedis()` guard. -/
def ensureConn (avail : Bool) (conn : Option Unit) : Except RErr (Option Unit) :=
  match conn with
  | none => connectRedis avail
  | some c => .ok (some c)

/-- `await this.redisClient?.get(key)`: skipped (yielding `undefined`,
modelled `none`) when the handle is absent; rejects when the store is
unreachable; otherwise a plain `GET`. -/
def redisGet (avail : Bool) (conn : Option Unit) (store : Store) (key : String) :
    Except RErr (Option String) :=
  match conn with
  | none => .ok none
  | some _ => if avail then .ok (store.get key) else .error .connectionError

/-- `await this.redisClient?.set(key, v, { EX: ex })`: skipped when the
handle is absent; rejects when the store is unreachable; otherwise `SET`. -/
def redisSet (avail : Bool) (conn : Option Unit) (store : Store) (key v : String)
    (ex : Int) : Except RErr Store :=
  match conn with
  | none => .ok store
  | some _ => if avail then .ok (store.set key v ex) else .error .connectionError

/-- JavaScript `Math.round`: half-way cases round toward positive infinity. -/
def jsRound (x : ℚ) : Int :=
  ⌊x + 1 / 2⌋

/-- The jitter `dt = Math.round(ttl * (Math.random() * 0.2 - 0.1))`. -/
def jitterDt (ttl : Nat) (rand : ℚ) : Int :=
  jsRound ((ttl : ℚ) * (rand * 0.2 - 0.1))

/-- Result of a `readFromCache` call: the returned value (or error) plus the
connection handle afterwards. -/
structure ReadOut where
  result : Except RErr JValue
  conn : Option Unit

/-- Embedding of `Client.readFromCache`.  A miss returns JavaScript `null`
(`JValue.null`); a present value is `JSON.parse`d (only a truthy, i.e.
non-empty, reply string takes the hit path). -/
def readFromCache (avail : Bool) (conn₀ : Option Unit) (store : Store)
    (query : String) (params : Option (List Scalar))
    (paramNames : List String := []) : ReadOut :=
  match ensureConn avail conn₀ with
  | .error e => ⟨.error e, none⟩
  | .ok conn =>
    let key := Client.getKeyFromQuery query params paramNames
    match redisGet avail conn store key with
    | .error e => ⟨.error e, conn⟩
    | .ok result =>
      match result with
      | some s =>
        if s.isEmpty then ⟨.ok .null, conn⟩
        else
          match jsonParse s with
          | some v => ⟨.ok v, conn⟩
          | none => ⟨.error .parseError, conn⟩
      | none => ⟨.ok .null, conn⟩

/-- Result of a `writeToCache` call. -/
structure WriteOut where
  result : Except RErr Unit
  conn : Option Unit
  store : Store

/-- Embedding of `Client.writeToCache`. -/
def writeToCache (avail : Bool) (conn₀ : Option Unit) (store : Store)
    (query : String) (value : JValue) (params : Option (List Scalar))
    (paramNames : List String := []) (ttl : Nat := 86400) (rand : ℚ := 0) : WriteOut :=
  match ensureConn avail conn₀ with
  | .error e => ⟨.error e, none, store⟩
  | .ok conn =>
    let key := Client.getKeyFromQuery query params paramNames
    let dt := jitterDt ttl rand
    match redisSet avail conn store key (stringify value) ((ttl : Int) + dt) with
    | .error e => ⟨.error e, conn, store⟩
    | .ok store' => ⟨.ok (), conn, store'⟩

/-- Result of a `withCache`/`queryWithCache` call: the returned value (or
error), the connection handle, the store afterwards, and whether the
producer `fn` was invoked. -/
structure CallOut where
  result : Except RErr JValue
  conn : Option Unit
  store : Store
  invoked : Bool

/-- Embedding of `Client.withCache`.  The producer `fn` is modelled by the
outcome of awaiting it; `invoked` records whether the miss path executed it. -/
def withCache (avail : Bool) (conn₀ : Option Unit) (store : Store)
    (fn : Except RErr JValue) (query : String) (params : Option (List Scalar))
    (paramNames : List String := []) (ttl : Nat := 86400) (rand : ℚ := 0) : CallOut :=
  match ensureConn avail conn₀ with
  | .error e => ⟨.error e, none, store, false⟩
  | .ok conn =>
    let key := Client.getKeyFromQuery query params paramNames
    match redisGet avail conn store key with
    | .error e => ⟨.error e, conn, store, false⟩
    | .ok result =>
      let runMiss : CallOut :=
        match fn with
        | .error e => ⟨.error e, conn, store, true⟩
        | .ok r =>
          let dt := jitterDt ttl rand
          match redisSet avail conn store key (stringify r) ((ttl : Int) + dt) with
          | .error e => ⟨.error e, conn, store, true⟩
          | .ok store' => ⟨.ok r, conn, store', true⟩
      match result with
      | some s =>
        if s.isEmpty then runMiss
        else
          match jsonParse s with
          | some v => ⟨.ok v, conn, store, false⟩
          | none => ⟨.error .parseError, conn, store, false⟩
      | none => runMiss

/-- Embedding of `Client.queryWithCache`: binds the producer to
`queryToPromise(query, params)` (whose awaited outcome is `dbResult`) and
delegates to `withCache`. -/
def queryWithCache (avail : Bool) (conn₀ : Option Unit) (store : Store)
    (dbResult : Except RErr JValue) (query : String) (params : Option (List Scalar))
    (paramNames : List String := []) (ttl : Nat := 86400) (rand : ℚ := 0) : CallOut :=
  withCache avail conn₀ store dbResult query params paramNames ttl rand

namespace Server

/-- The required substrings `keyNames[i] + '=' + keyValues[i]` built by
`dropOutdatedCache` (JavaScript indexing: missing values read `undefined`). -/
def requiredMatches (keyNames : List String) (keyValues : List Scalar) : List String :=
  keyNames.enum.map (fun p => p.2 ++ "=" ++ (jsIndex keyValues p.1).toJSString)

/-- Whether `needle` occurs as a contiguous sublist of `hay`. -/
def infixB (needle hay : List Char) : Bool :=
  if needle.isPrefixOf hay then true
  else
    match hay with
    | [] => false
    | _ :: t => infixB needle t

/-- `key.includes(param)`: substring containment. -/
def strIncludes (key sub : String) : Bool :=
  infixB sub.data key.data

/-- The scan-and-delete loop body of `dropOutdatedCache`: for each scanned
key, delete it and bump the counter iff it contains all required substrings. -/
def dropLoop (keys : List String) (required : List String) (store : Store)
    (count : Nat) : Nat × Store :=
  match keys with
  | [] => (count, store)
  | k :: rest =>
    if required.all (fun p => strIncludes k p) then
      dropLoop rest required (store.del k) (count + 1)
    else
      dropLoop rest required store count

/-- Embedding of `Server.dropOutdatedCache`.  The cursor-based `SCAN` is
modelled as one batch returning the snapshot of all keys with the terminal
cursor `'0'`, so the `do..while` loop body runs exactly once. -/
def dropOutdatedCache (avail : Bool) (conn₀ : Option Unit) (store : Store)
    (keyNames : List String) (keyValues : List Scalar) :
    Except RErr (Nat × Store × Option Unit) :=
  match ensureConn avail conn₀ with
  | .error e => .error e
  | .ok conn =>
    match conn with
    | none => .ok (0, store, conn)
    | some _ =>
      let required := requiredMatches keyNames keyValues
      let p := dropLoop (store.entries.map Prod.fst) required store 0
      .ok (p.1, p.2, conn)

end Server

/-! ### Auxiliary definitions used by the statements and proofs -/

mutual

/-- Parser fuel sufficient for the serialization of a value. -/
def valFuel : JValue → Nat
  | .str _ => 1
  | .num _ => 1
  | .bool _ => 1
  | .null => 1
  | .arr [] => 1
  | .arr (x :: xs) => 1 + max (valFuel x) (itemsFuel xs)
  | .obj [] => 1
  | .obj (f :: fs) => 1 + max (fieldFuel f) (fieldsFuel fs)

/-- Parser fuel sufficient for one object member. -/
def fieldFuel : String × JValue → Nat
  | (_, v) => valFuel v

/-- Parser fuel sufficient for an array tail. -/
def itemsFuel : List JValue → Nat
  | [] => 1
  | x :: xs => 1 + max (valFuel x) (itemsFuel xs)

/-- Parser fuel sufficient for an object tail. -/
def fieldsFuel : List (String × JValue) → Nat
  | [] => 1
  | f :: fs => 1 + max (fieldFuel f) (fieldsFuel fs)

end

/-- JavaScript falsiness on JSON values (`null`, `false`, `0`, `""`). -/
def jsFalsy : JValue → Bool
  | .null => true
  | .bool b => !b
  | .num n => n == 0
  | .str s => s.isEmpty
  | _ => false

/-! ### Specification-side key rendering

Declarative rendering of the parameter segments, used to state the claims
about `getKeyFromQuery`: one `name=value_` segment per pair, in order. -/

/-- Ordered rendering of `name=value_` segments for a pair list. -/
def renderSegs : List (String × Scalar) → String
  | [] => ""
  | (n, v) :: rest => n ++ "=" ++ v.toJSString ++ "_" ++ renderSegs rest

/-- The segment string produced by the key builder's `forEach`, starting at
index `i` of the value array. -/
def segsFrom (ps : List Scalar) : List String → Nat → String
  | [], _ => ""
  | n :: ns, i => n ++ "=" ++ (jsIndex ps i).toJSString ++ "_" ++ segsFrom ps ns (i + 1)

theorem foldl_key_eq_segsFrom (ps : List Scalar) (names : List String) :
    ∀ (i : Nat) (acc : String),
      (names.enumFrom i).foldl
        (fun key p => key ++ p.2 ++ "=" ++ (jsIndex ps p.1).toJSString ++ "_") acc
      = acc ++ segsFrom ps names i := by
  induction names with
  | nil => intro i acc; simp [segsFrom]
  | cons n ns ih =>
    intro i acc
    simp only [List.enumFrom, List.foldl_cons, segsFrom, ih]
    simp [String.append_assoc]

theorem segsFrom_eq_renderSegs (ps : List Scalar) (names : List String) :
    ∀ i : Nat, i + names.length ≤ ps.length →
      segsFrom ps names i = renderSegs (names.zip (ps.drop i)) := by
  induction names with
  | nil => intro i _; simp [segsFrom, renderSegs]
  | cons n ns ih =>
    intro i h
    have hi : i < ps.length := by simp at h; omega
    have hdrop : ps.drop i = ps[i] :: ps.drop (i + 1) :=
      List.drop_eq_getElem_cons hi
    have hidx : jsIndex ps i = ps[i] := by
      simp [jsIndex, List.getD_eq_getElem?_getD, List.getElem?_eq_getElem hi]
    rw [hdrop]
    simp only [List.zip_cons_cons, renderSegs, segsFrom, hidx]
    rw [ih (i + 1) (by simp at h ⊢; omega)]
    rfl

theorem string_empty_append (s : String) : "" ++ s = s := by
  apply String.ext
  show [] ++ s.data = s.data
  simp

theorem getKey_eq_renderSegs (q : String) (ps : List Scalar) (names : List String)
    (hps : ps ≠ []) (hlen : names.length ≤ ps.length) :
    Client.getKeyFromQuery q (some ps) names = renderSegs (names.zip ps) ++ sha1hex q := by
  have hpos : ps.length > 0 := List.length_pos.mpr hps
  simp only [Client.getKeyFromQuery, hpos, decide_eq_true_eq, if_pos, Option.getD_some]
  rw [show names.enum = names.enumFrom 0 from rfl, foldl_key_eq_segsFrom,
    segsFrom_eq_renderSegs ps names 0 (by omega)]
  rw [List.drop_zero, string_empty_append]

theorem getKey_no_params (q : String) (names : List String) :
    Client.getKeyFromQuery q none names = sha1hex q ∧
    Client.getKeyFromQuery q (some []) names = sha1hex q :=
  ⟨string_empty_append (sha1hex q), string_empty_append (sha1hex q)⟩

/-! ### Round-trip of the decimal rendering -/

theorem natDigitsRev_eq_digits : ∀ (fuel n : Nat), n ≤ fuel →
    natDigitsRev fuel n = Nat.digits 10 n := by
  intro fuel
  induction fuel with
  | zero =>
    intro n h
    interval_cases n
    simp [natDigitsRev]
  | succ f ih =>
    intro n h
    by_cases h0 : n = 0
    · subst h0; simp [natDigitsRev]
    · have hlt : n / 10 < n := Nat.div_lt_self (Nat.pos_of_ne_zero h0) (by omega)
      rw [natDigitsRev, if_neg h0, ih (n / 10) (by omega)]
      rw [Nat.digits_def' (by norm_num) (Nat.pos_of_ne_zero h0)]

theorem digitVal_digitChar (d : Nat) (h : d < 10) :
    digitVal (Nat.digitChar d) = d := by
  interval_cases d <;> rfl

theorem digitChar_toNat_of_lt (d : Nat) (h : d < 10) :
    (Nat.digitChar d).toNat = 48 + d := by
  interval_cases d <;> rfl

theorem foldl_horner : ∀ (ds : List Nat) (a : Nat),
    ds.reverse.foldl (fun acc d => 10 * acc + d) a
      = a * 10 ^ ds.length + Nat.ofDigits 10 ds := by
  intro ds
  induction ds with
  | nil => intro a; simp
  | cons d ds ih =>
    intro a
    rw [List.reverse_cons, List.foldl_append, ih]
    simp only [List.foldl_cons, List.foldl_nil, Nat.ofDigits_cons, List.length_cons]
    ring

theorem foldl_digitChar : ∀ (ds : List Nat), (∀ d ∈ ds, d < 10) → ∀ (a : Nat),
    (ds.map Nat.digitChar).foldl (fun acc c => 10 * acc + digitVal c) a
      = ds.foldl (fun acc d => 10 * acc + d) a := by
  intro ds
  induction ds with
  | nil => intro _ a; rfl
  | cons d ds ih =>
    intro h a
    simp only [List.map_cons, List.foldl_cons]
    rw [digitVal_digitChar d (h d (by simp)), ih (fun e he => h e (by simp [he]))]

theorem digitsToNat_natChars (n : Nat) : digitsToNat (natChars n) = n := by
  by_cases h0 : n = 0
  · subst h0; rfl
  · rw [natChars, if_neg h0, digitsToNat,
      natDigitsRev_eq_digits n n le_rfl, ← List.map_reverse, foldl_digitChar _
        (fun d hd => Nat.digits_lt_base (by norm_num) (List.mem_reverse.mp hd)),
      ← List.reverse_reverse (Nat.digits 10 n), foldl_horner, List.reverse_reverse]
    simp [Nat.ofDigits_digits]

theorem natChars_all_digits (n : Nat) :
    ∀ c ∈ natChars n, 48 ≤ c.toNat ∧ c.toNat ≤ 57 := by
  intro c hc
  by_cases h0 : n = 0
  · subst h0; simp [natChars] at hc; subst hc; decide
  · rw [natChars, if_neg h0, natDigitsRev_eq_digits n n le_rfl] at hc
    rw [List.mem_reverse, List.mem_map] at hc
    obtain ⟨d, hd, rfl⟩ := hc
    have hlt : d < 10 := Nat.digits_lt_base (by norm_num) hd
    rw [digitChar_toNat_of_lt d hlt]
    omega

theorem natChars_ne_nil (n : Nat) : natChars n ≠ [] := by
  by_cases h0 : n = 0
  · subst h0; simp [natChars]
  · rw [natChars, if_neg h0, natDigitsRev_eq_digits n n le_rfl]
    simp [Nat.digits_ne_nil_iff_ne_zero, h0]

/-! ### Character-class facts -/

theorem char_isDigit_iff (c : Char) : c.isDigit = true ↔ (48 ≤ c.toNat ∧ c.toNat ≤ 57) := by
  simp only [Char.isDigit, ge_iff_le, UInt32.le_def, BitVec.le_def, Bool.and_eq_true,
    decide_eq_true_eq]
  rw [show (UInt32.toBitVec 48).toNat = 48 from rfl, show (UInt32.toBitVec 57).toNat = 57 from rfl,
    show c.val.toBitVec.toNat = c.toNat from rfl]

theorem char_eq_iff_toNat (c d : Char) : c = d ↔ c.toNat = d.toNat := by
  constructor
  · intro h; rw [h]
  · intro h
    have := congrArg Char.ofNat h
    simpa using this

theorem isWsChar_false_of_digit_range (c : Char) (h1 : 48 ≤ c.toNat) (h2 : c.toNat ≤ 57) :
    isWsChar c = false := by
  have e1 : Char.toNat ' ' = 32 := rfl
  have e2 : Char.toNat '\x09' = 9 := rfl
  have e3 : Char.toNat '\x0a' = 10 := rfl
  have e4 : Char.toNat '\x0d' = 13 := rfl
  simp only [isWsChar, char_eq_iff_toNat, e1, e2, e3, e4, Bool.or_eq_false_iff,
    decide_eq_false_iff_not]
  omega

theorem skipWs_cons_of_not_ws (c : Char) (l : List Char) (h : isWsChar c = false) :
    skipWs (c :: l) = c :: l := by
  simp [skipWs, h]

theorem expectLit_same : ∀ (pre rest : List Char), expectLit pre (pre ++ rest) = some rest := by
  intro pre
  induction pre with
  | nil => intro rest; rfl
  | cons p ps ih => intro rest; simp [expectLit, ih]

/-! ### Round-trip of number parsing -/

theorem takeWhile_digits_append : ∀ (l rest : List Char),
    (∀ c ∈ l, c.isDigit = true) → (∀ c, rest.head? = some c → c.isDigit = false) →
    (l ++ rest).takeWhile Char.isDigit = l ∧ (l ++ rest).dropWhile Char.isDigit = rest := by
  intro l
  induction l with
  | nil =>
    intro rest _ hstop
    match rest with
    | [] => exact ⟨rfl, rfl⟩
    | r :: rs =>
      have hr := hstop r rfl
      simp [List.takeWhile_cons, List.dropWhile_cons, hr]
  | cons c cs ih =>
    intro rest hall hstop
    have hc := hall c (by simp)
    have := ih rest (fun x hx => hall x (by simp [hx])) hstop
    simp [List.takeWhile_cons, List.dropWhile_cons, hc, this.1, this.2]

theorem parseNatNum_natChars (n : Nat) (rest : List Char)
    (hstop : ∀ c, rest.head? = some c → c.isDigit = false) :
    parseNatNum (natChars n ++ rest) = some (n, rest) := by
  have hall : ∀ c ∈ natChars n, c.isDigit = true := fun c hc =>
    (char_isDigit_iff c).mpr (natChars_all_digits n c hc)
  have h := takeWhile_digits_append (natChars n) rest hall hstop
  rw [parseNatNum]
  simp only [h.1, h.2]
  rw [if_neg (by simp [List.isEmpty_iff, natChars_ne_nil]), digitsToNat_natChars]

theorem natChars_head_digit (n : Nat) :
    ∃ c cs, natChars n = c :: cs ∧ 48 ≤ c.toNat ∧ c.toNat ≤ 57 := by
  obtain ⟨c, cs, hc⟩ := List.exists_cons_of_ne_nil (natChars_ne_nil n)
  exact ⟨c, cs, hc, natChars_all_digits n c (by rw [hc]; simp)⟩

theorem parseNum_intChars (m : Int) (rest : List Char)
    (hstop : ∀ c, rest.head? = some c → c.isDigit = false) :
    parseNum (intChars m ++ rest) = some (.num m, rest) := by
  by_cases hm : m < 0
  · rw [intChars, if_pos hm]
    rw [parseNum]
    rw [if_pos (show (('-' :: natChars m.natAbs) ++ rest).head? = some '-' from rfl)]
    rw [show (('-' :: natChars m.natAbs) ++ rest).tail = natChars m.natAbs ++ rest from rfl]
    rw [parseNatNum_natChars m.natAbs rest hstop]
    simp only [Option.map_some']
    rw [show (-(m.natAbs : Int)) = m by omega]
  · rw [intChars, if_neg hm]
    obtain ⟨c, cs, hc, h1, h2⟩ := natChars_head_digit m.natAbs
    rw [parseNum, hc]
    rw [if_neg (by
      rw [show ((c :: cs) ++ rest).head? = some c from rfl]
      simp only [Option.some.injEq]
      intro hx
      rw [char_eq_iff_toNat, show Char.toNat '-' = 45 from rfl] at hx
      omega)]
    rw [← hc, parseNatNum_natChars m.natAbs rest hstop]
    simp only [Option.map_some']
    rw [show ((m.natAbs : Int)) = m by omega]

/-! ### Round-trip of string-literal parsing -/

theorem hexVal_digitChar (d : Nat) (h : d < 16) : hexVal (Nat.digitChar d) = some d := by
  interval_cases d <;> rfl

theorem escChars_cons (c : Char) (cs : List Char) :
    escChars (c :: cs) = escapeChar c ++ escChars cs := by
  simp [escChars]

theorem escChars_length_ge (l : List Char) : l.length ≤ (escChars l).length := by
  induction l with
  | nil => simp [escChars]
  | cons c cs ih =>
    rw [escChars_cons, List.length_append, List.length_cons]
    have : 1 ≤ (escapeChar c).length := by
      rw [escapeChar]
      repeat' split
      all_goals simp [hexEsc]
    omega

theorem parseEsc_hexEsc (n : Nat) (h : n < 32) (tail : List Char) :
    parseEsc ('u' :: '0' :: '0' :: (n / 16).digitChar :: (n % 16).digitChar :: tail)
      = some (Char.ofNat n, tail) := by
  have hdiv : n / 16 < 16 := by omega
  have hmod : n % 16 < 16 := by omega
  rw [parseEsc]
  rw [if_neg (by decide), if_neg (by decide), if_neg (by decide), if_neg (by decide),
    if_neg (by decide), if_neg (by decide), if_neg (by decide), if_neg (by decide),
    if_pos rfl]
  simp only [hexVal_digitChar _ hdiv, hexVal_digitChar _ hmod,
    show hexVal '0' = some 0 from rfl]
  rw [show (4096 * 0 + 256 * 0 + 16 * (n / 16) + n % 16) = n by omega]
  rw [if_pos (by omega)]

theorem parseStr_escChars : ∀ (l : List Char) (fuel : Nat) (rest : List Char),
    l.length + 1 ≤ fuel → parseStr fuel (escChars l ++ '"' :: rest) = some (l, rest) := by
  intro l
  induction l with
  | nil =>
    intro fuel rest h
    obtain ⟨f, rfl⟩ : ∃ f, fuel = f + 1 := ⟨fuel - 1, by omega⟩
    simp [escChars, parseStr]
  | cons c cs ih =>
    intro fuel rest h
    obtain ⟨f, rfl⟩ : ∃ f, fuel = f + 1 := ⟨fuel - 1, by omega⟩
    have hf : cs.length + 1 ≤ f := by simp at h; omega
    rw [escChars_cons, List.append_assoc]
    by_cases h1 : c = '"'
    · subst h1
      rw [show escapeChar '"' = ['\\', '"'] from rfl]
      rw [List.cons_append, List.cons_append, List.nil_append, parseStr]
      simp [parseEsc, ih f rest hf]
    · by_cases h2 : c = '\\'
      · subst h2
        rw [show escapeChar '\\' = ['\\', '\\'] from rfl]
        rw [List.cons_append, List.cons_append, List.nil_append, parseStr]
        simp [parseEsc, ih f rest hf]
      · by_cases h3 : c = '\x08'
        · subst h3
          rw [show escapeChar '\x08' = ['\\', 'b'] from rfl]
          rw [List.cons_append, List.cons_append, List.nil_append, parseStr]
          simp [parseEsc, ih f rest hf]
        · by_cases h4 : c = '\x09'
          · subst h4
            rw [show escapeChar '\x09' = ['\\', 't'] from rfl]
            rw [List.cons_append, List.cons_append, List.nil_append, parseStr]
            simp [parseEsc, ih f rest hf]
          · by_cases h5 : c = '\x0a'
            · subst h5
              rw [show escapeChar '\x0a' = ['\\', 'n'] from rfl]
              rw [List.cons_append, List.cons_append, List.nil_append, parseStr]
              simp [parseEsc, ih f rest hf]
            · by_cases h6 : c = '\x0c'
              · subst h6
                rw [show escapeChar '\x0c' = ['\\', 'f'] from rfl]
                rw [List.cons_append, List.cons_append, List.nil_append, parseStr]
                simp [parseEsc, ih f rest hf]
              · by_cases h7 : c = '\x0d'
                · subst h7
                  rw [show escapeChar '\x0d' = ['\\', 'r'] from rfl]
                  rw [List.cons_append, List.cons_append, List.nil_append, parseStr]
                  simp [parseEsc, ih f rest hf]
                · by_cases h8 : c.toNat < 0x20
                  · rw [escapeChar, if_neg h1, if_neg h2, if_neg h3, if_neg h4, if_neg h5,
                      if_neg h6, if_neg h7, if_pos h8, hexEsc]
                    have hdiv : c.toNat / 16 < 16 := by omega
                    have hmod : c.toNat % 16 < 16 := by omega
                    simp only [List.cons_append, List.nil_append]
                    rw [parseStr]
                    rw [if_neg (by decide), if_pos rfl]
                    rw [parseEsc_hexEsc c.toNat h8 (escChars cs ++ '"' :: rest)]
                    simp [ih f rest hf]
                  · rw [escapeChar, if_neg h1, if_neg h2, if_neg h3, if_neg h4, if_neg h5,
                      if_neg h6, if_neg h7, if_neg h8]
                    simp only [List.cons_append, List.nil_append]
                    rw [parseStr, if_neg h1, if_neg h2, if_neg h8, ih f rest hf]
                    rfl

/-! ### Round-trip of full JSON parsing -/

theorem char_ne_of_toNat (c d : Char) (h : c.toNat ≠ d.toNat) : ¬ c = d := fun e => h (by rw [e])

theorem parseV_to_parseNum (f : Nat) (c : Char) (l : List Char)
    (hws : isWsChar c = false) (hn : ¬c = 'n') (ht : ¬c = 't') (hf : ¬c = 'f')
    (hq : ¬c = '"') (hb : ¬c = '[') (ho : ¬c = '\x7b') :
    parseV (f + 1) (c :: l) = parseNum (c :: l) := by
  rw [parseV, skipWs_cons_of_not_ws c l hws]
  simp only [if_neg hn, if_neg ht, if_neg hf, if_neg hq, if_neg hb, if_neg ho]

theorem strChars_head_facts (v : JValue) :
    ∃ c t, strChars v = c :: t ∧ isWsChar c = false ∧ ¬c = ']' ∧ ¬c = '\x7d' := by
  cases v with
  | null => exact ⟨'n', ['u', 'l', 'l'], by simp [strChars], by decide, by decide, by decide⟩
  | bool b =>
    cases b with
    | true => exact ⟨'t', ['r', 'u', 'e'], by simp [strChars], by decide, by decide, by decide⟩
    | false =>
      exact ⟨'f', ['a', 'l', 's', 'e'], by simp [strChars], by decide, by decide, by decide⟩
  | num n =>
    by_cases hn : n < 0
    · exact ⟨'-', natChars n.natAbs, by simp [strChars, intChars, hn], by decide, by decide,
        by decide⟩
    · obtain ⟨c, cs, hc, h1, h2⟩ := natChars_head_digit n.natAbs
      refine ⟨c, cs, by simp [strChars, intChars, hn, hc], isWsChar_false_of_digit_range c h1 h2,
        char_ne_of_toNat c ']' ?_, char_ne_of_toNat c '\x7d' ?_⟩
      · rw [show Char.toNat ']' = 93 from rfl]; omega
      · rw [show Char.toNat '\x7d' = 125 from rfl]; omega
  | str s =>
    exact ⟨'"', escChars s.data ++ ['"'], by simp [strChars, strLit], by decide, by decide,
      by decide⟩
  | arr elems =>
    cases elems with
    | nil => exact ⟨'[', [']'], by simp [strChars], by decide, by decide, by decide⟩
    | cons x xs =>
      exact ⟨'[', strChars x ++ itemsTail xs ++ [']'], by simp [strChars], by decide, by decide,
        by decide⟩
  | obj fields =>
    cases fields with
    | nil => exact ⟨'\x7b', ['\x7d'], by simp [strChars], by decide, by decide, by decide⟩
    | cons f fs =>
      exact ⟨'\x7b', fieldChars f ++ fieldsTail fs ++ ['\x7d'], by simp [strChars], by decide,
        by decide, by decide⟩

theorem parseKey_strLit (k : String) (tail : List Char) :
    parseKey (strLit k ++ ':' :: tail) = some (k, tail) := by
  rw [strLit]
  simp only [List.cons_append, List.append_assoc, List.singleton_append, List.nil_append]
  have hlen : k.data.length + 1 ≤ (escChars k.data ++ '"' :: ':' :: tail).length := by
    have := escChars_length_ge k.data
    simp only [List.length_append, List.length_cons]
    omega
  rw [parseKey, skipWs_cons_of_not_ws _ _ (by decide)]
  simp only [parseStr_escChars k.data _ (':' :: tail) hlen,
    skipWs_cons_of_not_ws _ _ (show isWsChar ':' = false by decide)]
  simp

theorem itemsTail_headStops (xs : List JValue) (rest : List Char) :
    ∀ c, (itemsTail xs ++ ']' :: rest).head? = some c → c.isDigit = false := by
  intro c hc
  cases xs with
  | nil => simp [itemsTail] at hc; subst hc; decide
  | cons x xs => simp [itemsTail] at hc; subst hc; decide

theorem fieldsTail_headStops (fs : List (String × JValue)) (rest : List Char) :
    ∀ c, (fieldsTail fs ++ '\x7d' :: rest).head? = some c → c.isDigit = false := by
  intro c hc
  cases fs with
  | nil => simp [fieldsTail] at hc; subst hc; decide
  | cons f fs => simp [fieldsTail] at hc; subst hc; decide

theorem parseItems_spec (xs : List JValue)
    (hPall : ∀ y ∈ xs, ∀ fuel rest, valFuel y ≤ fuel →
      (∀ c, rest.head? = some c → c.isDigit = false) →
      parseV fuel (strChars y ++ rest) = some (y, rest)) :
    ∀ (acc : List JValue) (fuel : Nat) (rest : List Char), itemsFuel xs ≤ fuel →
      (∀ c, rest.head? = some c → c.isDigit = false) →
      parseItems fuel (itemsTail xs ++ ']' :: rest) acc
        = some (.arr (acc.reverse ++ xs), rest) := by
  induction xs with
  | nil =>
    intro acc fuel rest hfuel hstop
    have h1 : 1 ≤ fuel := le_trans (by simp [itemsFuel]) hfuel
    obtain ⟨f, rfl⟩ : ∃ f, fuel = f + 1 := ⟨fuel - 1, by omega⟩
    rw [show itemsTail [] = [] from rfl, List.nil_append]
    rw [parseItems, skipWs_cons_of_not_ws _ _ (by decide)]
    simp
  | cons x xs ih =>
    intro acc fuel rest hfuel hstop
    have hfx : valFuel x ≤ fuel - 1 ∧ itemsFuel xs ≤ fuel - 1 ∧ 1 ≤ fuel := by
      rw [itemsFuel] at hfuel; omega
    obtain ⟨f, rfl⟩ : ∃ f, fuel = f + 1 := ⟨fuel - 1, by omega⟩
    rw [show itemsTail (x :: xs) = ',' :: (strChars x ++ itemsTail xs) from rfl]
    simp only [List.cons_append, List.append_assoc]
    rw [parseItems, skipWs_cons_of_not_ws _ _ (by decide)]
    simp only [List.head?_cons, List.tail_cons]
    rw [if_neg (by simp)]
    simp only [reduceIte]
    rw [hPall x (by simp) f _ (by omega) (itemsTail_headStops xs rest)]
    simp only [Option.bind_eq_bind, Option.some_bind]
    rw [ih (fun y hy => hPall y (by simp [hy])) (x :: acc) f rest (by omega) hstop]
    simp

theorem parseFields_spec (fs : List (String × JValue))
    (hPall : ∀ p ∈ fs, ∀ fuel rest, valFuel p.2 ≤ fuel →
      (∀ c, rest.head? = some c → c.isDigit = false) →
      parseV fuel (strChars p.2 ++ rest) = some (p.2, rest)) :
    ∀ (acc : List (String × JValue)) (fuel : Nat) (rest : List Char), fieldsFuel fs ≤ fuel →
      (∀ c, rest.head? = some c → c.isDigit = false) →
      parseFields fuel (fieldsTail fs ++ '\x7d' :: rest) acc
        = some (.obj (acc.reverse ++ fs), rest) := by
  induction fs with
  | nil =>
    intro acc fuel rest hfuel hstop
    have h1 : 1 ≤ fuel := le_trans (by simp [fieldsFuel]) hfuel
    obtain ⟨f, rfl⟩ : ∃ f, fuel = f + 1 := ⟨fuel - 1, by omega⟩
    rw [show fieldsTail [] = [] from rfl, List.nil_append]
    rw [parseFields, skipWs_cons_of_not_ws _ _ (by decide)]
    simp
  | cons p fs ih =>
    obtain ⟨k, v⟩ := p
    intro acc fuel rest hfuel hstop
    have hfx : fieldFuel (k, v) ≤ fuel - 1 ∧ fieldsFuel fs ≤ fuel - 1 ∧ 1 ≤ fuel := by
      rw [fieldsFuel] at hfuel; omega
    rw [fieldFuel] at hfx
    obtain ⟨f, rfl⟩ : ∃ f, fuel = f + 1 := ⟨fuel - 1, by omega⟩
    rw [show fieldsTail ((k, v) :: fs) = ',' :: (fieldChars (k, v) ++ fieldsTail fs) from rfl]
    rw [show fieldChars (k, v) = strLit k ++ ':' :: strChars v from rfl]
    simp only [List.cons_append, List.append_assoc]
    rw [parseFields, skipWs_cons_of_not_ws _ _ (by decide)]
    simp only [List.head?_cons, List.tail_cons]
    rw [if_neg (by simp)]
    simp only [reduceIte]
    rw [parseKey_strLit k (strChars v ++ (fieldsTail fs ++ '\x7d' :: rest))]
    simp only [Option.bind_eq_bind, Option.some_bind]
    rw [hPall (k, v) (by simp) f _ (by show valFuel v ≤ f; omega) (fieldsTail_headStops fs rest)]
    simp only [Option.some_bind]
    rw [ih (fun y hy => hPall y (by simp [hy])) ((k, v) :: acc) f rest (by omega) hstop]
    simp

theorem parseV_strChars_aux : ∀ (N : Nat) (v : JValue), sizeOf v ≤ N →
    ∀ (fuel : Nat) (rest : List Char), valFuel v ≤ fuel →
      (∀ c, rest.head? = some c → c.isDigit = false) →
      parseV fuel (strChars v ++ rest) = some (v, rest) := by
  intro N
  induction N with
  | zero =>
    intro v hv
    exfalso
    cases v <;> simp at hv
  | succ N ih =>
    intro v hv fuel rest hfuel hstop
    cases v with
    | null =>
      obtain ⟨f, rfl⟩ : ∃ f, fuel = f + 1 := ⟨fuel - 1, by rw [valFuel] at hfuel; omega⟩
      rw [show strChars JValue.null = ['n', 'u', 'l', 'l'] from by simp [strChars]]
      simp only [List.cons_append, List.nil_append]
      rw [parseV, skipWs_cons_of_not_ws _ _ (by decide)]
      simp only [Char.reduceEq, reduceIte]
      rw [show 'u' :: 'l' :: 'l' :: rest = ['u', 'l', 'l'] ++ rest from rfl, expectLit_same]
      rfl
    | bool b =>
      obtain ⟨f, rfl⟩ : ∃ f, fuel = f + 1 := ⟨fuel - 1, by rw [valFuel] at hfuel; omega⟩
      cases b with
      | true =>
        rw [show strChars (JValue.bool true) = ['t', 'r', 'u', 'e'] from by simp [strChars]]
        simp only [List.cons_append, List.nil_append]
        rw [parseV, skipWs_cons_of_not_ws _ _ (by decide)]
        simp only [Char.reduceEq, reduceIte]
        rw [show 'r' :: 'u' :: 'e' :: rest = ['r', 'u', 'e'] ++ rest from rfl, expectLit_same]
        rfl
      | false =>
        rw [show strChars (JValue.bool false) = ['f', 'a', 'l', 's', 'e'] from by simp [strChars]]
        simp only [List.cons_append, List.nil_append]
        rw [parseV, skipWs_cons_of_not_ws _ _ (by decide)]
        simp only [Char.reduceEq, reduceIte]
        rw [show 'a' :: 'l' :: 's' :: 'e' :: rest = ['a', 'l', 's', 'e'] ++ rest from rfl,
          expectLit_same]
        rfl
    | num n =>
      obtain ⟨f, rfl⟩ : ∃ f, fuel = f + 1 := ⟨fuel - 1, by rw [valFuel] at hfuel; omega⟩
      rw [show strChars (JValue.num n) = intChars n from by simp [strChars]]
      by_cases hn : n < 0
      · rw [intChars, if_pos hn, List.cons_append]
        rw [parseV_to_parseNum f '-' _ (by decide) (by decide) (by decide) (by decide)
          (by decide) (by decide) (by decide)]
        rw [← List.cons_append, show '-' :: natChars n.natAbs = intChars n from by
          rw [intChars, if_pos hn]]
        exact parseNum_intChars n rest hstop
      · obtain ⟨c, cs, hc, h1, h2⟩ := natChars_head_digit n.natAbs
        rw [intChars, if_neg hn, hc, List.cons_append]
        rw [parseV_to_parseNum f c _ (isWsChar_false_of_digit_range c h1 h2)
          (char_ne_of_toNat c 'n' (by rw [show Char.toNat 'n' = 110 from rfl]; omega))
          (char_ne_of_toNat c 't' (by rw [show Char.toNat 't' = 116 from rfl]; omega))
          (char_ne_of_toNat c 'f' (by rw [show Char.toNat 'f' = 102 from rfl]; omega))
          (char_ne_of_toNat c '"' (by rw [show Char.toNat '"' = 34 from rfl]; omega))
          (char_ne_of_toNat c '[' (by rw [show Char.toNat '[' = 91 from rfl]; omega))
          (char_ne_of_toNat c '\x7b' (by rw [show Char.toNat '\x7b' = 123 from rfl]; omega))]
        rw [← List.cons_append, ← hc, show natChars n.natAbs = intChars n from by
          rw [intChars, if_neg hn]]
        exact parseNum_intChars n rest hstop
    | str s =>
      obtain ⟨f, rfl⟩ : ∃ f, fuel = f + 1 := ⟨fuel - 1, by rw [valFuel] at hfuel; omega⟩
      rw [show strChars (JValue.str s) = '"' :: (escChars s.data ++ ['"']) from by
        simp [strChars, strLit]]
      simp only [List.cons_append, List.append_assoc, List.singleton_append, List.nil_append]
      rw [parseV, skipWs_cons_of_not_ws _ _ (by decide)]
      simp only [Char.reduceEq, reduceIte]
      have hlen : s.data.length + 1 ≤ (escChars s.data ++ '"' :: rest).length := by
        have := escChars_length_ge s.data
        simp only [List.length_append, List.length_cons]
        omega
      rw [parseStr_escChars s.data _ rest hlen]
      simp
    | arr elems =>
      cases elems with
      | nil =>
        obtain ⟨f, rfl⟩ : ∃ f, fuel = f + 1 := ⟨fuel - 1, by rw [valFuel] at hfuel; omega⟩
        rw [show strChars (JValue.arr []) = ['[', ']'] from by simp [strChars]]
        simp only [List.cons_append, List.nil_append]
        rw [parseV, skipWs_cons_of_not_ws _ _ (by decide)]
        simp only [Char.reduceEq, reduceIte]
        rw [skipWs_cons_of_not_ws _ _ (by decide)]
        simp
      | cons x xs =>
        obtain ⟨f, rfl⟩ : ∃ f, fuel = f + 1 := ⟨fuel - 1, by rw [valFuel] at hfuel; omega⟩
        rw [valFuel] at hfuel
        have hmax : max (valFuel x) (itemsFuel xs) ≤ f := by omega
        have hfx : valFuel x ≤ f := le_trans (le_max_left _ _) hmax
        have hfxs : itemsFuel xs ≤ f := le_trans (le_max_right _ _) hmax
        have hPall : ∀ y ∈ x :: xs, ∀ fuel rest, valFuel y ≤ fuel →
            (∀ c, rest.head? = some c → c.isDigit = false) →
            parseV fuel (strChars y ++ rest) = some (y, rest) := by
          intro y hy
          apply ih
          have h1 := List.sizeOf_lt_of_mem hy
          simp only [JValue.arr.sizeOf_spec] at hv
          omega
        rw [show strChars (JValue.arr (x :: xs))
            = '[' :: (strChars x ++ itemsTail xs ++ [']']) from by simp [strChars]]
        simp only [List.cons_append, List.append_assoc, List.singleton_append, List.nil_append]
        rw [parseV, skipWs_cons_of_not_ws _ _ (by decide)]
        simp only [Char.reduceEq, reduceIte]
        obtain ⟨c, t, hc, hcws, hc93, _⟩ := strChars_head_facts x
        rw [hc, List.cons_append, skipWs_cons_of_not_ws _ _ hcws]
        rw [if_neg (by simp [hc93])]
        rw [← List.cons_append, ← hc]
        rw [hPall x (by simp) f _ hfx (itemsTail_headStops xs rest)]
        simp only [Option.bind_eq_bind, Option.some_bind]
        rw [parseItems_spec xs (fun y hy => hPall y (by simp [hy])) [x] f rest hfxs hstop]
        simp
    | obj fields =>
      cases fields with
      | nil =>
        obtain ⟨f, rfl⟩ : ∃ f, fuel = f + 1 := ⟨fuel - 1, by rw [valFuel] at hfuel; omega⟩
        rw [show strChars (JValue.obj []) = ['\x7b', '\x7d'] from by simp [strChars]]
        simp only [List.cons_append, List.nil_append]
        rw [parseV, skipWs_cons_of_not_ws _ _ (by decide)]
        simp only [Char.reduceEq, reduceIte]
        rw [skipWs_cons_of_not_ws _ _ (by decide)]
        simp
      | cons p fs =>
        obtain ⟨k, v⟩ := p
        obtain ⟨f, rfl⟩ : ∃ f, fuel = f + 1 := ⟨fuel - 1, by rw [valFuel] at hfuel; omega⟩
        rw [valFuel] at hfuel
        have hmax : max (fieldFuel (k, v)) (fieldsFuel fs) ≤ f := by omega
        have hfv : valFuel v ≤ f :=
          le_trans (le_trans (le_of_eq rfl) (le_max_left _ _)) hmax
        have hffs : fieldsFuel fs ≤ f := le_trans (le_max_right _ _) hmax
        have hPall : ∀ p ∈ (k, v) :: fs, ∀ fuel rest, valFuel p.2 ≤ fuel →
            (∀ c, rest.head? = some c → c.isDigit = false) →
            parseV fuel (strChars p.2 ++ rest) = some (p.2, rest) := by
          intro p hp
          obtain ⟨k', v'⟩ := p
          apply ih
          have h1 := List.sizeOf_lt_of_mem hp
          simp only [JValue.obj.sizeOf_spec, Prod.mk.sizeOf_spec] at hv h1 ⊢
          omega
        rw [show strChars (JValue.obj ((k, v) :: fs))
            = '\x7b' :: (fieldChars (k, v) ++ fieldsTail fs ++ ['\x7d']) from by
          simp [strChars]]
        rw [show fieldChars (k, v) = strLit k ++ ':' :: strChars v from rfl]
        simp only [List.cons_append, List.append_assoc, List.singleton_append, List.nil_append]
        rw [parseV, skipWs_cons_of_not_ws _ _ (by decide)]
        simp only [Char.reduceEq, reduceIte]
        rw [show strLit k = '"' :: (escChars k.data ++ ['"']) from rfl]
        simp only [List.cons_append, List.append_assoc, List.singleton_append, List.nil_append]
        rw [skipWs_cons_of_not_ws _ _ (by decide)]
        rw [if_neg (by simp)]
        rw [show '"' :: (escChars k.data ++ '"' :: ':' :: (strChars v ++ (fieldsTail fs
            ++ '\x7d' :: rest))) = strLit k ++ ':' :: (strChars v ++ (fieldsTail fs
            ++ '\x7d' :: rest)) from by rw [strLit]; simp]
        rw [parseKey_strLit k _]
        simp only [Option.bind_eq_bind, Option.some_bind]
        rw [hPall (k, v) (by simp) f _ (by show valFuel v ≤ f; omega)
          (fieldsTail_headStops fs rest)]
        simp only [Option.some_bind]
        rw [parseFields_spec fs (fun y hy => hPall y (by simp [hy])) [(k, v)] f rest hffs hstop]
        simp

theorem stringify_isEmpty_false (v : JValue) : (stringify v).isEmpty = false := by
  obtain ⟨c, t, hc, _, _, _⟩ := strChars_head_facts v
  rw [stringify, hc]
  rw [Bool.eq_false_iff]
  intro h
  have := (String.isEmpty_iff _).mp h
  have hd := congrArg String.data this
  simp at hd

theorem itemsFuel_le (xs : List JValue)
    (h : ∀ y ∈ xs, valFuel y ≤ (strChars y).length + 1) :
    itemsFuel xs ≤ (itemsTail xs).length + 1 := by
  induction xs with
  | nil => simp [itemsFuel, itemsTail]
  | cons x xs ih =>
    have hx := h x (by simp)
    have hxs := ih (fun y hy => h y (by simp [hy]))
    rw [itemsFuel, show itemsTail (x :: xs) = ',' :: (strChars x ++ itemsTail xs) from rfl]
    simp only [List.length_cons, List.length_append]
    have := max_le (le_trans hx (by omega : (strChars x).length + 1
      ≤ (strChars x).length + (itemsTail xs).length + 1))
      (le_trans hxs (by omega : (itemsTail xs).length + 1
        ≤ (strChars x).length + (itemsTail xs).length + 1))
    omega

theorem fieldsFuel_le (fs : List (String × JValue))
    (h : ∀ p ∈ fs, valFuel p.2 ≤ (strChars p.2).length + 1) :
    fieldsFuel fs ≤ (fieldsTail fs).length + 1 := by
  induction fs with
  | nil => simp [fieldsFuel, fieldsTail]
  | cons p fs ih =>
    obtain ⟨k, v⟩ := p
    have hx : valFuel v ≤ (strChars v).length + 1 := h (k, v) (by simp)
    have hxs := ih (fun y hy => h y (by simp [hy]))
    rw [fieldsFuel, show fieldsTail ((k, v) :: fs)
      = ',' :: (fieldChars (k, v) ++ fieldsTail fs) from rfl,
      show fieldChars (k, v) = strLit k ++ ':' :: strChars v from rfl]
    simp only [List.length_cons, List.length_append]
    rw [show fieldFuel (k, v) = valFuel v from rfl]
    have := max_le (le_trans hx (by omega : (strChars v).length + 1
      ≤ (strLit k).length + ((strChars v).length + (fieldsTail fs).length + 1)))
      (le_trans hxs (by omega : (fieldsTail fs).length + 1
        ≤ (strLit k).length + ((strChars v).length + (fieldsTail fs).length + 1)))
    omega

theorem valFuel_le_length : ∀ (N : Nat) (v : JValue), sizeOf v ≤ N →
    valFuel v ≤ (strChars v).length + 1 := by
  intro N
  induction N with
  | zero =>
    intro v hv
    exfalso
    cases v <;> simp at hv
  | succ N ih =>
    intro v hv
    cases v with
    | null => rw [valFuel]; omega
    | bool b => rw [valFuel]; omega
    | num n => rw [valFuel]; omega
    | str s => rw [valFuel]; omega
    | arr elems =>
      cases elems with
      | nil => rw [valFuel]; omega
      | cons x xs =>
        have hall : ∀ y ∈ x :: xs, valFuel y ≤ (strChars y).length + 1 := by
          intro y hy
          apply ih
          have h1 := List.sizeOf_lt_of_mem hy
          simp only [JValue.arr.sizeOf_spec] at hv
          omega
        have hx := hall x (by simp)
        have hxs := itemsFuel_le xs (fun y hy => hall y (by simp [hy]))
        rw [valFuel, show strChars (JValue.arr (x :: xs))
          = '[' :: (strChars x ++ itemsTail xs ++ [']']) from by simp [strChars]]
        simp only [List.length_cons, List.length_append, List.length_singleton]
        have := max_le (le_trans hx (by omega : (strChars x).length + 1
          ≤ (strChars x).length + (itemsTail xs).length + 1))
          (le_trans hxs (by omega : (itemsTail xs).length + 1
            ≤ (strChars x).length + (itemsTail xs).length + 1))
        omega
    | obj fields =>
      cases fields with
      | nil => rw [valFuel]; omega
      | cons p fs =>
        obtain ⟨k, v⟩ := p
        have hall : ∀ p ∈ (k, v) :: fs, valFuel p.2 ≤ (strChars p.2).length + 1 := by
          intro p hp
          obtain ⟨k', v'⟩ := p
          apply ih
          have h1 := List.sizeOf_lt_of_mem hp
          simp only [JValue.obj.sizeOf_spec, Prod.mk.sizeOf_spec] at hv h1 ⊢
          omega
        have hx : valFuel v ≤ (strChars v).length + 1 := hall (k, v) (by simp)
        have hxs := fieldsFuel_le fs (fun y hy => hall y (by simp [hy]))
        rw [valFuel, show strChars (JValue.obj ((k, v) :: fs))
          = '\x7b' :: (fieldChars (k, v) ++ fieldsTail fs ++ ['\x7d']) from by simp [strChars],
          show fieldChars (k, v) = strLit k ++ ':' :: strChars v from rfl,
          show fieldFuel (k, v) = valFuel v from rfl]
        simp only [List.length_cons, List.length_append, List.length_singleton]
        have := max_le (le_trans hx (by omega : (strChars v).length + 1
          ≤ (strLit k).length + (strChars v).length + (fieldsTail fs).length + 1))
          (le_trans hxs (by omega : (fieldsTail fs).length + 1
            ≤ (strLit k).length + (strChars v).length + (fieldsTail fs).length + 1))
        omega

/-- `JSON.parse` inverts `JSON.stringify` on every modelled JSON value. -/
theorem jsonParse_stringify (v : JValue) : jsonParse (stringify v) = some v := by
  have hb : valFuel v ≤ (strChars v).length + 1 := valFuel_le_length (sizeOf v) v le_rfl
  have h := parseV_strChars_aux (sizeOf v) v le_rfl ((strChars v).length + 1) []
    hb (by intro c hc; simp at hc)
  rw [List.append_nil] at h
  rw [jsonParse, stringify]
  rw [show (String.mk (strChars v)).data = strChars v from rfl, h]
  rfl

/-! ### Store and protocol lemmas -/

theorem store_get_set_self (s : Store) (k v : String) (ex : Int) :
    (s.set k v ex).get k = some v := by
  simp [Store.get, Store.set, List.find?_cons]

theorem store_getEntry_set_self (s : Store) (k v : String) (ex : Int) :
    (s.set k v ex).getEntry k = some ⟨v, ex⟩ := by
  simp [Store.getEntry, Store.set, List.find?_cons]

theorem ensureConn_true (conn₀ : Option Unit) : ensureConn true conn₀ = .ok (some ()) := by
  cases conn₀ with
  | none => rfl
  | some c => cases c; rfl

theorem ensureConn_false_none : ensureConn false none = .error .connectionError := rfl

theorem readFromCache_miss (conn₀ : Option Unit) (store : Store) (q : String)
    (ps : Option (List Scalar)) (ns : List String)
    (hmiss : store.get (Client.getKeyFromQuery q ps ns) = none) :
    readFromCache true conn₀ store q ps ns = ⟨.ok .null, some ()⟩ := by
  rw [readFromCache, ensureConn_true]
  simp [redisGet, hmiss]

theorem readFromCache_hit (conn₀ : Option Unit) (store : Store) (q : String)
    (ps : Option (List Scalar)) (ns : List String) (s : String) (v : JValue)
    (hhit : store.get (Client.getKeyFromQuery q ps ns) = some s)
    (hne : s.isEmpty = false) (hp : jsonParse s = some v) :
    readFromCache true conn₀ store q ps ns = ⟨.ok v, some ()⟩ := by
  rw [readFromCache, ensureConn_true]
  simp [redisGet, hhit, hne, hp]

theorem writeToCache_eq (conn₀ : Option Unit) (store : Store) (q : String) (value : JValue)
    (ps : Option (List Scalar)) (ns : List String) (ttl : Nat) (rand : ℚ) :
    writeToCache true conn₀ store q value ps ns ttl rand
      = ⟨.ok (), some (), store.set (Client.getKeyFromQuery q ps ns) (stringify value)
          ((ttl : Int) + jitterDt ttl rand)⟩ := by
  rw [writeToCache, ensureConn_true]
  simp [redisSet]

theorem withCache_miss_ok (conn₀ : Option Unit) (store : Store) (r : JValue) (q : String)
    (ps : Option (List Scalar)) (ns : List String) (ttl : Nat) (rand : ℚ)
    (hmiss : store.get (Client.getKeyFromQuery q ps ns) = none) :
    withCache true conn₀ store (.ok r) q ps ns ttl rand
      = ⟨.ok r, some (), store.set (Client.getKeyFromQuery q ps ns) (stringify r)
          ((ttl : Int) + jitterDt ttl rand), true⟩ := by
  rw [withCache, ensureConn_true]
  simp [redisGet, hmiss, redisSet]

theorem withCache_miss_error (conn₀ : Option Unit) (store : Store) (e : RErr) (q : String)
    (ps : Option (List Scalar)) (ns : List String) (ttl : Nat) (rand : ℚ)
    (hmiss : store.get (Client.getKeyFromQuery q ps ns) = none) :
    withCache true conn₀ store (.error e) q ps ns ttl rand
      = ⟨.error e, some (), store, true⟩ := by
  rw [withCache, ensureConn_true]
  simp [redisGet, hmiss]

theorem withCache_hit (conn₀ : Option Unit) (store : Store) (fn : Except RErr JValue)
    (q : String) (ps : Option (List Scalar)) (ns : List String) (ttl : Nat) (rand : ℚ)
    (s : String) (v : JValue)
    (hhit : store.get (Client.getKeyFromQuery q ps ns) = some s)
    (hne : s.isEmpty = false) (hp : jsonParse s = some v) :
    withCache true conn₀ store fn q ps ns ttl rand = ⟨.ok v, some (), store, false⟩ := by
  rw [withCache, ensureConn_true]
  simp [redisGet, hhit, hne, hp]

/-! ### Jitter bounds -/

theorem jitterDt_upper (ttl : Nat) (rand : ℚ) (h1 : rand < 1) :
    jitterDt ttl rand ≤ jsRound (0.1 * (ttl : ℚ)) := by
  rw [jitterDt, jsRound, jsRound]
  apply Int.floor_le_floor
  have httl : (0 : ℚ) ≤ (ttl : ℚ) := by positivity
  nlinarith

theorem jitterDt_lower (ttl : Nat) (rand : ℚ) (h0 : 0 ≤ rand) :
    -(jsRound (0.1 * (ttl : ℚ))) ≤ jitterDt ttl rand := by
  rw [jitterDt, jsRound, jsRound]
  have httl : (0 : ℚ) ≤ (ttl : ℚ) := by positivity
  have step1 : ⌊(-(0.1 * (ttl : ℚ)) + 1 / 2 : ℚ)⌋ ≤ ⌊((ttl : ℚ) * (rand * 0.2 - 0.1) + 1 / 2 : ℚ)⌋ := by
    apply Int.floor_le_floor
    nlinarith
  have e1 : (-(0.1 * (ttl : ℚ)) + 1 / 2 : ℚ) = -(0.1 * (ttl : ℚ) + 1 / 2) + 1 := by ring
  have step2 : ⌊(-(0.1 * (ttl : ℚ)) + 1 / 2 : ℚ)⌋ = -⌈(0.1 * (ttl : ℚ) + 1 / 2 : ℚ)⌉ + 1 := by
    rw [e1, Int.floor_add_one, Int.floor_neg]
  have step3 : ⌈(0.1 * (ttl : ℚ) + 1 / 2 : ℚ)⌉ ≤ ⌊(0.1 * (ttl : ℚ) + 1 / 2 : ℚ)⌋ + 1 :=
    Int.ceil_le_floor_add_one _
  omega

theorem jsRound_3600 : jsRound (0.1 * (3600 : ℚ)) = 360 := by
  rw [jsRound]
  norm_num

/-! ### Invalidation-scan lemmas -/

theorem dropLoop_eq : ∀ (keys req : List String) (store : Store) (count : Nat),
    Server.dropLoop keys req store count
      = (count + (keys.filter
            (fun k => req.all (fun p => Server.strIncludes k p))).length,
         (keys.filter (fun k => req.all (fun p => Server.strIncludes k p))).foldl
           Store.del store) := by
  intro keys
  induction keys with
  | nil => intro req store count; simp [Server.dropLoop]
  | cons k ks ih =>
    intro req store count
    rw [Server.dropLoop]
    by_cases hm : req.all (fun p => Server.strIncludes k p)
    · rw [if_pos hm, ih]
      simp only [List.filter_cons, hm]
      simp [List.foldl_cons]
      omega
    · rw [if_neg hm, ih]
      simp only [List.filter_cons]
      rw [if_neg hm]

theorem foldl_del_entries : ∀ (L : List String) (store : Store),
    (L.foldl Store.del store).entries
      = store.entries.filter (fun e => !(L.contains e.1)) := by
  intro L
  induction L with
  | nil =>
    intro store
    simp
  | cons k ks ih =>
    intro store
    rw [List.foldl_cons, ih]
    rw [show (Store.del store k).entries
      = store.entries.filter (fun e => !(e.1 == k)) from rfl]
    rw [List.filter_filter]
    apply List.filter_congr
    intro e _
    simp only [List.contains_cons]
    rw [Bool.not_or, Bool.and_comm]

theorem store_ext (s t : Store) (h : s.entries = t.entries) : s = t := by
  cases s; cases t; simpa using h

theorem dropOutdatedCache_eq (conn₀ : Option Unit) (store : Store) (names : List String)
    (values : List Scalar) :
    Server.dropOutdatedCache true conn₀ store names values
      = .ok (store.entries.countP
              (fun e => (Server.requiredMatches names values).all
                (fun p => Server.strIncludes e.1 p)),
             ⟨store.entries.filter
              (fun e => !((Server.requiredMatches names values).all
                (fun p => Server.strIncludes e.1 p)))⟩,
             some ()) := by
  rw [Server.dropOutdatedCache, ensureConn_true]
  simp only []
  rw [dropLoop_eq]
  have hcount : (((store.entries.map Prod.fst).filter
        (fun k => (Server.requiredMatches names values).all
          (fun p => Server.strIncludes k p))).length)
      = store.entries.countP
          (fun e => (Server.requiredMatches names values).all
            (fun p => Server.strIncludes e.1 p)) := by
    rw [← List.countP_eq_length_filter, List.countP_map]
    rfl
  have hstore : ((store.entries.map Prod.fst).filter
        (fun k => (Server.requiredMatches names values).all
          (fun p => Server.strIncludes k p))).foldl Store.del store
      = Store.mk (store.entries.filter
          (fun e => !((Server.requiredMatches names values).all
            (fun p => Server.strIncludes e.1 p)))) := by
    apply store_ext
    rw [foldl_del_entries]
    apply List.filter_congr
    intro e he
    cases hP : (Server.requiredMatches names values).all (fun p => Server.strIncludes e.1 p) with
    | true =>
      have hmem : e.1 ∈ (store.entries.map Prod.fst).filter
          (fun k => (Server.requiredMatches names values).all
            (fun p => Server.strIncludes k p)) := by
        apply List.mem_filter.mpr
        exact ⟨List.mem_map_of_mem Prod.fst he, by simp [hP]⟩
      rw [show ((store.entries.map Prod.fst).filter
          (fun k => (Server.requiredMatches names values).all
            (fun p => Server.strIncludes k p))).contains e.1 = true from
        List.elem_eq_true_of_mem hmem]
    | false =>
      rw [show ((store.entries.map Prod.fst).filter
          (fun k => (Server.requiredMatches names values).all
            (fun p => Server.strIncludes k p))).contains e.1 = false from by
        rw [Bool.eq_false_iff]
        intro hc
        have := List.mem_filter.mp (List.mem_of_elem_eq_true hc)
        rw [hP] at this
        simp at this]
  rw [hcount, hstore]
  simp

theorem enumFrom_map_matches (values : List Scalar) : ∀ (names : List String) (i : Nat),
    i + names.length ≤ values.length →
    (names.enumFrom i).map (fun p => p.2 ++ "=" ++ (jsIndex values p.1).toJSString)
      = (names.zip (values.drop i)).map (fun p => p.1 ++ "=" ++ p.2.toJSString) := by
  intro names
  induction names with
  | nil => intro i _; simp
  | cons n ns ih =>
    intro i h
    have hi : i < values.length := by simp at h; omega
    rw [List.drop_eq_getElem_cons hi]
    have hidx : jsIndex values i = values[i] := by
      simp [jsIndex, List.getD_eq_getElem?_getD, List.getElem?_eq_getElem hi]
    simp only [List.enumFrom, List.map_cons, List.zip_cons_cons, hidx]
    rw [ih (i + 1) (by simp at h ⊢; omega)]

theorem requiredMatches_eq_zip (names : List String) (values : List Scalar)
    (hlen : names.length ≤ values.length) :
    Server.requiredMatches names values
      = (names.zip values).map (fun p => p.1 ++ "=" ++ p.2.toJSString) := by
  rw [Server.requiredMatches, show names.enum = names.enumFrom 0 from rfl,
    enumFrom_map_matches values names 0 (by omega), List.drop_zero]

/-! ### Claim theorems -/

/-- C2: `getKeyFromQuery` with an empty or absent values list returns exactly the
hex-encoded SHA-1 of the UTF-8 bytes of the signature; with a non-empty values
list and an equally long names list it returns the `name=value_` segments in
input order followed by the hash. -/
theorem C2_getKeyFromQuery_format (q : String) (values : List Scalar) (names : List String) :
    (Client.getKeyFromQuery q none names = sha1hex q ∧
      Client.getKeyFromQuery q (some []) names = sha1hex q) ∧
    (values ≠ [] → names.length = values.length →
      Client.getKeyFromQuery q (some values) names
        = renderSegs (names.zip values) ++ sha1hex q) :=
  ⟨getKey_no_params q names,
    fun hne hlen => getKey_eq_renderSegs q values names hne (le_of_eq hlen)⟩

/-- Witness for C2 at the spec's example input: values `[6, 456]` with names
`["StoreId", "UserId"]` yield `"StoreId=6_UserId=456_" ++ hash`. -/
theorem C2_getKeyFromQuery_format_witness :
    ([Scalar.int 6, Scalar.int 456] ≠ ([] : List Scalar)) ∧
    (["StoreId", "UserId"].length = [Scalar.int 6, Scalar.int 456].length) ∧
    Client.getKeyFromQuery "q" (some [Scalar.int 6, Scalar.int 456]) ["StoreId", "UserId"]
      = "StoreId=6_UserId=456_" ++ sha1hex "q" := by
  refine ⟨by decide, by decide, ?_⟩
  have h := (C2_getKeyFromQuery_format "q" [Scalar.int 6, Scalar.int 456]
    ["StoreId", "UserId"]).2 (by decide) (by decide)
  rw [h]
  congr 1

/-- C5: the three key-derivation implementations (current `Client`, legacy
`MRCInstance`, legacy `Client`) agree on every input. -/
theorem C5_key_derivations_agree (q : String) (ps : Option (List Scalar)) (ns : List String) :
    Client.getKeyFromQuery q ps ns = MRCInstance.getKeyFromQuery q ps ns ∧
    MRCInstance.getKeyFromQuery q ps ns = LegacyClient.getKeyFromQuery q ps ns :=
  ⟨rfl, rfl⟩

/-- C9: with a non-empty names list and a strictly longer values list, the key
contains exactly `names.length` segments (the zip truncates), excess values are
silently omitted, and no error is raised (the function is total). -/
theorem C9_excess_values_omitted (q : String) (values : List Scalar) (names : List String)
    (_hne : names ≠ []) (hlen : names.length < values.length) :
    Client.getKeyFromQuery q (some values) names
      = renderSegs (names.zip values) ++ sha1hex q ∧
    (names.zip values).length = names.length := by
  have hvne : values ≠ [] := by
    intro h
    subst h
    simp at hlen
  refine ⟨getKey_eq_renderSegs q values names hvne (le_of_lt hlen), ?_⟩
  rw [List.length_zip]
  omega

/-- Witness for C9: two values against one name produce exactly one segment. -/
theorem C9_excess_values_omitted_witness :
    (["a"] ≠ ([] : List String)) ∧
    (["a"].length < [Scalar.int 1, Scalar.int 2].length) ∧
    Client.getKeyFromQuery "q" (some [Scalar.int 1, Scalar.int 2]) ["a"]
      = "a=1_" ++ sha1hex "q" ∧
    (["a"].zip [Scalar.int 1, Scalar.int 2]).length = ["a"].length := by
  have h := C9_excess_values_omitted "q" [Scalar.int 1, Scalar.int 2] ["a"]
    (by decide) (by decide)
  refine ⟨by decide, by decide, ?_, h.2⟩
  rw [h.1]
  congr 1

/-- C4: the expiration passed to the store by `writeToCache` (and by the write
step of `withCache`) is `ttl + round(ttl * (0.2 * r - 0.1))`, which lies within
`[ttl - round(0.1 * ttl), ttl + round(0.1 * ttl)]`; for `ttl = 3600` it lies
within `[3240, 3960]`. -/
theorem C4_jittered_ttl (conn₀ : Option Unit) (store : Store) (q : String) (value : JValue)
    (ps : Option (List Scalar)) (ns : List String) (ttl : Nat) (rand : ℚ)
    (h0 : 0 ≤ rand) (h1 : rand < 1) :
    (writeToCache true conn₀ store q value ps ns ttl rand).store.getEntry
        (Client.getKeyFromQuery q ps ns)
      = some ⟨stringify value, (ttl : Int) + jsRound ((ttl : ℚ) * (rand * 0.2 - 0.1))⟩ ∧
    (store.get (Client.getKeyFromQuery q ps ns) = none →
      (withCache true conn₀ store (.ok value) q ps ns ttl rand).store.getEntry
          (Client.getKeyFromQuery q ps ns)
        = some ⟨stringify value, (ttl : Int) + jsRound ((ttl : ℚ) * (rand * 0.2 - 0.1))⟩) ∧
    (ttl : Int) - jsRound (0.1 * (ttl : ℚ))
      ≤ (ttl : Int) + jsRound ((ttl : ℚ) * (rand * 0.2 - 0.1)) ∧
    (ttl : Int) + jsRound ((ttl : ℚ) * (rand * 0.2 - 0.1))
      ≤ (ttl : Int) + jsRound (0.1 * (ttl : ℚ)) ∧
    (ttl = 3600 →
      3240 ≤ (ttl : Int) + jsRound ((ttl : ℚ) * (rand * 0.2 - 0.1)) ∧
      (ttl : Int) + jsRound ((ttl : ℚ) * (rand * 0.2 - 0.1)) ≤ 3960) := by
  have hup := jitterDt_upper ttl rand h1
  have hlo := jitterDt_lower ttl rand h0
  rw [jitterDt] at hup hlo
  refine ⟨?_, ?_, by omega, by omega, ?_⟩
  · rw [writeToCache_eq]
    simp only [jitterDt]
    exact store_getEntry_set_self _ _ _ _
  · intro hmiss
    rw [withCache_miss_ok conn₀ store value q ps ns ttl rand hmiss]
    simp only [jitterDt]
    exact store_getEntry_set_self _ _ _ _
  · intro httl
    subst httl
    rw [show ((3600 : ℕ) : ℚ) = (3600 : ℚ) by norm_num] at hup hlo ⊢
    rw [jsRound_3600] at hup hlo
    omega

/-- Witness for C4 at `ttl = 3600`, `rand = 0`. -/
theorem C4_jittered_ttl_witness :
    ((0 : ℚ) ≤ 0 ∧ (0 : ℚ) < 1) ∧
    ((writeToCache true (some ()) ⟨[]⟩ "q" JValue.null none [] 3600 0).store.getEntry
        (Client.getKeyFromQuery "q" none [])
      = some ⟨stringify JValue.null, (3600 : Int) + jsRound ((3600 : ℚ) * (0 * 0.2 - 0.1))⟩ ∧
    (Store.get ⟨[]⟩ (Client.getKeyFromQuery "q" none []) = none →
      (withCache true (some ()) ⟨[]⟩ (.ok JValue.null) "q" none [] 3600 0).store.getEntry
          (Client.getKeyFromQuery "q" none [])
        = some ⟨stringify JValue.null, (3600 : Int) + jsRound ((3600 : ℚ) * (0 * 0.2 - 0.1))⟩) ∧
    (3600 : Int) - jsRound (0.1 * (3600 : ℚ))
      ≤ (3600 : Int) + jsRound ((3600 : ℚ) * (0 * 0.2 - 0.1)) ∧
    (3600 : Int) + jsRound ((3600 : ℚ) * (0 * 0.2 - 0.1))
      ≤ (3600 : Int) + jsRound (0.1 * (3600 : ℚ)) ∧
    ((3600 : Nat) = 3600 →
      3240 ≤ (3600 : Int) + jsRound ((3600 : ℚ) * (0 * 0.2 - 0.1)) ∧
      (3600 : Int) + jsRound ((3600 : ℚ) * (0 * 0.2 - 0.1)) ≤ 3960)) :=
  ⟨⟨le_refl 0, by norm_num⟩,
    C4_jittered_ttl (some ()) ⟨[]⟩ "q" JValue.null none [] 3600 0 (le_refl 0) (by norm_num)⟩

/-- C7: when the store is unavailable, `readFromCache` and the read step of
`withCache` surface a connection error to the caller — for every connection
handle state, including the invalidated (`none`) handle — and never return the
"no value" result or fall through to the miss path. -/
theorem C7_unavailable_store_errors (conn₀ : Option Unit) (store : Store) (q : String)
    (ps : Option (List Scalar)) (ns : List String) (fn : Except RErr JValue)
    (ttl : Nat) (rand : ℚ) :
    (readFromCache false conn₀ store q ps ns).result = .error .connectionError ∧
    (withCache false conn₀ store fn q ps ns ttl rand).result = .error .connectionError ∧
    (withCache false conn₀ store fn q ps ns ttl rand).invoked = false := by
  cases conn₀ with
  | none => exact ⟨rfl, rfl, rfl⟩
  | some c => cases c; exact ⟨rfl, rfl, rfl⟩

/-- C8: a failing producer propagates its error through `withCache` (and
`queryWithCache`) and performs no store write: the store is unchanged. -/
theorem C8_producer_error_not_cached (conn₀ : Option Unit) (store : Store) (e : RErr)
    (q : String) (ps : Option (List Scalar)) (ns : List String) (ttl : Nat) (rand : ℚ)
    (hmiss : store.get (Client.getKeyFromQuery q ps ns) = none) :
    withCache true conn₀ store (.error e) q ps ns ttl rand
      = ⟨.error e, some (), store, true⟩ ∧
    queryWithCache true conn₀ store (.error e) q ps ns ttl rand
      = ⟨.error e, some (), store, true⟩ := by
  refine ⟨withCache_miss_error conn₀ store e q ps ns ttl rand hmiss, ?_⟩
  rw [queryWithCache]
  exact withCache_miss_error conn₀ store e q ps ns ttl rand hmiss

/-- Witness for C8 on an empty store with a query error. -/
theorem C8_producer_error_not_cached_witness :
    (Store.get ⟨[]⟩ (Client.getKeyFromQuery "q" none []) = none) ∧
    (withCache true (some ()) ⟨[]⟩ (.error (.queryError "boom")) "q" none [] 86400 0
      = ⟨.error (.queryError "boom"), some (), ⟨[]⟩, true⟩ ∧
    queryWithCache true (some ()) ⟨[]⟩ (.error (.queryError "boom")) "q" none [] 86400 0
      = ⟨.error (.queryError "boom"), some (), ⟨[]⟩, true⟩) :=
  ⟨rfl, C8_producer_error_not_cached (some ()) ⟨[]⟩ (.queryError "boom") "q" none [] 86400 0 rfl⟩

/-- C1: starting from a store with no entry under the derived key, two
successive `withCache` calls with identical arguments invoke the producer
exactly once — the first takes the miss path (invokes the producer and writes
the serialized result under the key), the second takes the hit path and
returns a value equal to the first call's result without invoking the
producer. -/
theorem C1_withCache_two_calls (conn₀ : Option Unit) (store₀ : Store) (r : JValue)
    (q : String) (ps : Option (List Scalar)) (ns : List String) (ttl : Nat)
    (rand₁ rand₂ : ℚ)
    (hmiss : store₀.get (Client.getKeyFromQuery q ps ns) = none) :
    (withCache true conn₀ store₀ (.ok r) q ps ns ttl rand₁).invoked = true ∧
    (withCache true conn₀ store₀ (.ok r) q ps ns ttl rand₁).result = .ok r ∧
    (withCache true conn₀ store₀ (.ok r) q ps ns ttl rand₁).store.get
        (Client.getKeyFromQuery q ps ns) = some (stringify r) ∧
    (withCache true (withCache true conn₀ store₀ (.ok r) q ps ns ttl rand₁).conn
        (withCache true conn₀ store₀ (.ok r) q ps ns ttl rand₁).store
        (.ok r) q ps ns ttl rand₂).invoked = false ∧
    (withCache true (withCache true conn₀ store₀ (.ok r) q ps ns ttl rand₁).conn
        (withCache true conn₀ store₀ (.ok r) q ps ns ttl rand₁).store
        (.ok r) q ps ns ttl rand₂).result
      = (withCache true conn₀ store₀ (.ok r) q ps ns ttl rand₁).result := by
  rw [withCache_miss_ok conn₀ store₀ r q ps ns ttl rand₁ hmiss]
  simp only []
  rw [withCache_hit (some ())
    (store₀.set (Client.getKeyFromQuery q ps ns) (stringify r)
      ((ttl : Int) + jitterDt ttl rand₁))
    (.ok r) q ps ns ttl rand₂ (stringify r) r (store_get_set_self _ _ _ _)
    (stringify_isEmpty_false r) (jsonParse_stringify r)]
  simp [store_get_set_self]

/-- Witness for C1 on an empty store with a numeric producer result. -/
theorem C1_withCache_two_calls_witness :
    (Store.get ⟨[]⟩ (Client.getKeyFromQuery "SELECT 1" none []) = none) ∧
    ((withCache true (some ()) ⟨[]⟩ (.ok (JValue.num 7)) "SELECT 1" none [] 60 0).invoked
        = true ∧
    (withCache true (some ()) ⟨[]⟩ (.ok (JValue.num 7)) "SELECT 1" none [] 60 0).result
        = .ok (JValue.num 7) ∧
    (withCache true (some ()) ⟨[]⟩ (.ok (JValue.num 7)) "SELECT 1" none [] 60 0).store.get
        (Client.getKeyFromQuery "SELECT 1" none []) = some (stringify (JValue.num 7)) ∧
    (withCache true
        (withCache true (some ()) ⟨[]⟩ (.ok (JValue.num 7)) "SELECT 1" none [] 60 0).conn
        (withCache true (some ()) ⟨[]⟩ (.ok (JValue.num 7)) "SELECT 1" none [] 60 0).store
        (.ok (JValue.num 7)) "SELECT 1" none [] 60 0).invoked = false ∧
    (withCache true
        (withCache true (some ()) ⟨[]⟩ (.ok (JValue.num 7)) "SELECT 1" none [] 60 0).conn
        (withCache true (some ()) ⟨[]⟩ (.ok (JValue.num 7)) "SELECT 1" none [] 60 0).store
        (.ok (JValue.num 7)) "SELECT 1" none [] 60 0).result
      = (withCache true (some ()) ⟨[]⟩ (.ok (JValue.num 7)) "SELECT 1" none [] 60 0).result) :=
  ⟨rfl, C1_withCache_two_calls (some ()) ⟨[]⟩ (JValue.num 7) "SELECT 1" none [] 60 0 0 rfl⟩

/-- C10: on the miss path `withCache` returns the producer's result itself
while the store receives the compact JSON serialization; a subsequent hit
returns whatever `JSON.parse` yields on that stored payload, which equals the
original result exactly when the result is a fixed point of the
serialize-then-parse round trip. -/
theorem C10_miss_returns_producer_value (conn₀ : Option Unit) (store₀ : Store) (r : JValue)
    (fn₂ : Except RErr JValue) (q : String) (ps : Option (List Scalar)) (ns : List String)
    (ttl : Nat) (rand₁ rand₂ : ℚ)
    (hmiss : store₀.get (Client.getKeyFromQuery q ps ns) = none) :
    (withCache true conn₀ store₀ (.ok r) q ps ns ttl rand₁).result = .ok r ∧
    (withCache true conn₀ store₀ (.ok r) q ps ns ttl rand₁).store.get
        (Client.getKeyFromQuery q ps ns) = some (stringify r) ∧
    (∀ rt, jsonParse (stringify r) = some rt →
      (withCache true (withCache true conn₀ store₀ (.ok r) q ps ns ttl rand₁).conn
          (withCache true conn₀ store₀ (.ok r) q ps ns ttl rand₁).store
          fn₂ q ps ns ttl rand₂).result = .ok rt) ∧
    ((withCache true (withCache true conn₀ store₀ (.ok r) q ps ns ttl rand₁).conn
          (withCache true conn₀ store₀ (.ok r) q ps ns ttl rand₁).store
          fn₂ q ps ns ttl rand₂).result = .ok r
      ↔ jsonParse (stringify r) = some r) := by
  rw [withCache_miss_ok conn₀ store₀ r q ps ns ttl rand₁ hmiss]
  simp only []
  refine ⟨trivial, store_get_set_self _ _ _ _, ?_, ?_⟩
  · intro rt hrt
    rw [withCache_hit (some ())
      (store₀.set (Client.getKeyFromQuery q ps ns) (stringify r)
        ((ttl : Int) + jitterDt ttl rand₁))
      fn₂ q ps ns ttl rand₂ (stringify r) rt (store_get_set_self _ _ _ _)
      (stringify_isEmpty_false r) hrt]
  · rw [withCache_hit (some ())
      (store₀.set (Client.getKeyFromQuery q ps ns) (stringify r)
        ((ttl : Int) + jitterDt ttl rand₁))
      fn₂ q ps ns ttl rand₂ (stringify r) r (store_get_set_self _ _ _ _)
      (stringify_isEmpty_false r) (jsonParse_stringify r)]
    simp [jsonParse_stringify]

/-- Witness for C10 on an empty store with a boolean producer result and a
different producer on the second call. -/
theorem C10_miss_returns_producer_value_witness :
    (Store.get ⟨[]⟩ (Client.getKeyFromQuery "q" none []) = none) ∧
    ((withCache true (some ()) ⟨[]⟩ (.ok (JValue.bool true)) "q" none [] 60 0).result
        = .ok (JValue.bool true) ∧
    (withCache true (some ()) ⟨[]⟩ (.ok (JValue.bool true)) "q" none [] 60 0).store.get
        (Client.getKeyFromQuery "q" none []) = some (stringify (JValue.bool true)) ∧
    (∀ rt, jsonParse (stringify (JValue.bool true)) = some rt →
      (withCache true
          (withCache true (some ()) ⟨[]⟩ (.ok (JValue.bool true)) "q" none [] 60 0).conn
          (withCache true (some ()) ⟨[]⟩ (.ok (JValue.bool true)) "q" none [] 60 0).store
          (.error .connectionError) "q" none [] 60 0).result = .ok rt) ∧
    ((withCache true
          (withCache true (some ()) ⟨[]⟩ (.ok (JValue.bool true)) "q" none [] 60 0).conn
          (withCache true (some ()) ⟨[]⟩ (.ok (JValue.bool true)) "q" none [] 60 0).store
          (.error .connectionError) "q" none [] 60 0).result = .ok (JValue.bool true)
      ↔ jsonParse (stringify (JValue.bool true)) = some (JValue.bool true))) :=
  ⟨rfl, C10_miss_returns_producer_value (some ()) ⟨[]⟩ (JValue.bool true)
    (.error .connectionError) "q" none [] 60 0 0 rfl⟩

/-- C6 counterexample: the claim that a cached `null` is distinguishable from
an absent key is false — reading the key under which `"null"` was stored
returns exactly the same result as reading from a store without the key. -/
theorem C6_counterexample :
    readFromCache true (some ())
        (Store.set ⟨[]⟩ (Client.getKeyFromQuery "q" none []) "null" 60) "q" none []
      = readFromCache true (some ()) ⟨[]⟩ "q" none [] ∧
    readFromCache true (some ()) ⟨[]⟩ "q" none [] = ⟨.ok .null, some ()⟩ := by
  have h1 := readFromCache_hit (some ())
    (Store.set ⟨[]⟩ (Client.getKeyFromQuery "q" none []) "null" 60) "q" none [] "null"
    .null (store_get_set_self _ _ _ _) (by decide) (by rfl)
  have h2 := readFromCache_miss (some ()) ⟨[]⟩ "q" none [] rfl
  exact ⟨h1.trans h2.symm, h2⟩

/-- C6 (amended): a cached value is returned as itself, so every cached falsy
value other than `null` (`false`, `0`, `""`) is distinguishable from the
absent-key result, but a cached `null` yields exactly the miss result: the two
reads agree iff the cached value is `null`. -/
theorem C6_cached_vs_missing (store : Store) (q : String) (ps : Option (List Scalar))
    (ns : List String) (v : JValue)
    (hcached : store.get (Client.getKeyFromQuery q ps ns) = some (stringify v)) :
    readFromCache true (some ()) store q ps ns = ⟨.ok v, some ()⟩ ∧
    readFromCache true (some ()) ⟨[]⟩ q ps ns = ⟨.ok .null, some ()⟩ ∧
    (readFromCache true (some ()) store q ps ns = readFromCache true (some ()) ⟨[]⟩ q ps ns
      ↔ v = .null) := by
  have h1 := readFromCache_hit (some ()) store q ps ns (stringify v) v hcached
    (stringify_isEmpty_false v) (jsonParse_stringify v)
  have h2 := readFromCache_miss (some ()) ⟨[]⟩ q ps ns rfl
  refine ⟨h1, h2, ?_⟩
  rw [h1, h2]
  constructor
  · intro he
    have := congrArg ReadOut.result he
    simpa using this
  · intro hv
    rw [hv]

/-- Witness for the amended C6 with a cached `false` (falsy but not `null`). -/
theorem C6_cached_vs_missing_witness :
    ((Store.set ⟨[]⟩ (Client.getKeyFromQuery "q" none [])
        (stringify (JValue.bool false)) 60).get (Client.getKeyFromQuery "q" none [])
      = some (stringify (JValue.bool false))) ∧
    (readFromCache true (some ())
        (Store.set ⟨[]⟩ (Client.getKeyFromQuery "q" none [])
          (stringify (JValue.bool false)) 60) "q" none []
      = ⟨.ok (JValue.bool false), some ()⟩ ∧
    readFromCache true (some ()) ⟨[]⟩ "q" none [] = ⟨.ok .null, some ()⟩ ∧
    (readFromCache true (some ())
        (Store.set ⟨[]⟩ (Client.getKeyFromQuery "q" none [])
          (stringify (JValue.bool false)) 60) "q" none []
      = readFromCache true (some ()) ⟨[]⟩ "q" none [] ↔ JValue.bool false = .null)) :=
  ⟨store_get_set_self _ _ _ _,
    C6_cached_vs_missing
      (Store.set ⟨[]⟩ (Client.getKeyFromQuery "q" none []) (stringify (JValue.bool false)) 60)
      "q" none [] (JValue.bool false) (store_get_set_self _ _ _ _)⟩

/-- C3: `dropOutdatedCache` deletes exactly the keys containing every required
`name=value` substring (AND semantics) and returns their count; with no match
it returns 0 and leaves the store unchanged; with an empty pair list every key
matches and is deleted. -/
theorem C3_dropOutdatedCache_and_semantics (conn₀ : Option Unit) (store : Store)
    (names : List String) (values : List Scalar) (hlen : names.length = values.length) :
    Server.dropOutdatedCache true conn₀ store names values
      = .ok (store.entries.countP (fun e =>
            ((names.zip values).map (fun p => p.1 ++ "=" ++ p.2.toJSString)).all
              (fun p => Server.strIncludes e.1 p)),
          ⟨store.entries.filter (fun e =>
            !(((names.zip values).map (fun p => p.1 ++ "=" ++ p.2.toJSString)).all
              (fun p => Server.strIncludes e.1 p)))⟩,
          some ()) ∧
    ((∀ e ∈ store.entries,
        ((names.zip values).map (fun p => p.1 ++ "=" ++ p.2.toJSString)).all
          (fun p => Server.strIncludes e.1 p) = false) →
      Server.dropOutdatedCache true conn₀ store names values = .ok (0, store, some ())) ∧
    (names = [] →
      Server.dropOutdatedCache true conn₀ store names values
        = .ok (store.entries.length, ⟨[]⟩, some ())) := by
  have hbase := dropOutdatedCache_eq conn₀ store names values
  rw [requiredMatches_eq_zip names values (le_of_eq hlen)] at hbase
  refine ⟨hbase, ?_, ?_⟩
  · intro hnone
    rw [hbase]
    have hc : store.entries.countP (fun e =>
        ((names.zip values).map (fun p => p.1 ++ "=" ++ p.2.toJSString)).all
          (fun p => Server.strIncludes e.1 p)) = 0 :=
      List.countP_eq_zero.mpr (fun e he => by simp [hnone e he])
    have hf : store.entries.filter (fun e =>
        !(((names.zip values).map (fun p => p.1 ++ "=" ++ p.2.toJSString)).all
          (fun p => Server.strIncludes e.1 p))) = store.entries :=
      List.filter_eq_self.mpr (fun e he => by simp [hnone e he])
    rw [hc, hf]
  · intro hempty
    subst hempty
    rw [hbase]
    simp

/-- Witness for C3 on a two-entry store with one matching key. -/
theorem C3_dropOutdatedCache_and_semantics_witness :
    (["UserId"].length = [Scalar.int 1].length) ∧
    (Server.dropOutdatedCache true (some ())
        ⟨[("UserId=1_k", ⟨"[1]", 60⟩), ("MinAge=20_k", ⟨"x", 60⟩)]⟩ ["UserId"] [Scalar.int 1]
      = .ok ((⟨[("UserId=1_k", ⟨"[1]", 60⟩), ("MinAge=20_k", ⟨"x", 60⟩)]⟩ : Store).entries.countP
            (fun e => ((["UserId"].zip [Scalar.int 1]).map
                (fun p => p.1 ++ "=" ++ p.2.toJSString)).all
              (fun p => Server.strIncludes e.1 p)),
          ⟨(⟨[("UserId=1_k", ⟨"[1]", 60⟩), ("MinAge=20_k", ⟨"x", 60⟩)]⟩ : Store).entries.filter
            (fun e => !(((["UserId"].zip [Scalar.int 1]).map
                (fun p => p.1 ++ "=" ++ p.2.toJSString)).all
              (fun p => Server.strIncludes e.1 p)))⟩,
          some ()) ∧
    ((∀ e ∈ (⟨[("UserId=1_k", ⟨"[1]", 60⟩), ("MinAge=20_k", ⟨"x", 60⟩)]⟩ : Store).entries,
        ((["UserId"].zip [Scalar.int 1]).map (fun p => p.1 ++ "=" ++ p.2.toJSString)).all
          (fun p => Server.strIncludes e.1 p) = false) →
      Server.dropOutdatedCache true (some ())
          ⟨[("UserId=1_k", ⟨"[1]", 60⟩), ("MinAge=20_k", ⟨"x", 60⟩)]⟩ ["UserId"] [Scalar.int 1]
        = .ok (0, ⟨[("UserId=1_k", ⟨"[1]", 60⟩), ("MinAge=20_k", ⟨"x", 60⟩)]⟩, some ())) ∧
    ((["UserId"] : List String) = [] →
      Server.dropOutdatedCache true (some ())
          ⟨[("UserId=1_k", ⟨"[1]", 60⟩), ("MinAge=20_k", ⟨"x", 60⟩)]⟩ ["UserId"] [Scalar.int 1]
        = .ok ((⟨[("UserId=1_k", ⟨"[1]", 60⟩),
            ("MinAge=20_k", ⟨"x", 60⟩)]⟩ : Store).entries.length, ⟨[]⟩, some ()))) :=
  ⟨rfl, C3_dropOutdatedCache_and_semantics (some ())
    ⟨[("UserId=1_k", ⟨"[1]", 60⟩), ("MinAge=20_k", ⟨"x", 60⟩)]⟩ ["UserId"] [Scalar.int 1] rfl⟩
